import Mathlib

/-!
Verification of `sort_comparision.cpp`: four sorting routines (selection sort, merge sort,
heapsort, quicksort), the random vector generator, the equality check `all_equal` and the
verdict printed by `main`.

Embedding.
* `vector<int>` is `List Int`; `push_back` is `++ [x]`.  Element values are only ever compared
  and copied, never used in arithmetic, so the width of the element type plays no role.
* `int` is a 32-bit two's complement integer and `size_t` an unsigned integer of at least 32
  bits (64 where a width is needed).  A conversion from `size_t` to `int` narrows modulo
  `2^32` (`to_int32`); an `int` addition or subtraction whose result does not fit
  (`fits_int32`) is undefined behaviour.  `selection_sort` narrows `arr.size()` into `n` and
  computes `n - 1`; `merge_sort` narrows `arr.size() - 1` into `right`, and
  `merge_sort_helper` computes `left + right`.
* A function whose run can leave defined behaviour returns an `Option`: `none` stands for
  undefined behaviour (signed overflow, an invalid iterator range, a read outside a vector)
  or, for the fuel-indexed `merge_sort_helper`, for a recursion that does not come back
  within the fuel.
* `std::priority_queue<int, vector<int>, greater<int>>` belongs to the C++ standard library.
  `heapsort` is embedded over an arbitrary implementation of the interface
  `MinPriorityQueue`, whose laws are the contract the standard gives for that adaptor.
* Wall-clock timing and console output of `measure_sort` are not modelled; of `main` the
  collected results and the final verdict line are.
* The random engine of `generate_random_vector` is a parameter (`draw`); the outcomes of a
  call are a returned vector, the exception of the vector constructor, and undefined
  behaviour when the precondition of the distribution object is violated.
* Stability of merge sort is stated for `labelled_merge_sort`, the code of `merge_sort` run
  on `(value, label)` pairs that are compared by value; its values are the output of
  `merge_sort` on the values.
-/

namespace SortComparison

/-! Machine integers. -/

/-- The value of a 32-bit two's complement `int` that receives the integer `x` by a narrowing
conversion. -/
@[irreducible]
def to_int32 (x : Int) : Int :=
  (2 ^ 31 + x) % 2 ^ 32 - 2 ^ 31

/-- Whether the integer `x` is a value of a 32-bit `int`.  An `int` operation whose
mathematical result is not such a value overflows. -/
@[irreducible]
def fits_int32 (x : Int) : Bool :=
  decide (-2 ^ 31 ≤ x ∧ x ≤ 2 ^ 31 - 1)

/-- The argument `arr.size() - 1` of `merge_sort` as the machine computes it: the subtraction
is carried out in the unsigned type `size_t` of `w` bits, and the result is narrowed to the
`int` parameter `right`. -/
def size_minus_one (w : Nat) (size : Nat) : Int :=
  to_int32 (((size : Int) - 1) % 2 ^ w)

/-! Selection sort (source lines 30-41). -/

/-- The call `swap(arr[i], arr[j])` on a vector. -/
def swap (arr : List Int) (i j : Nat) : List Int :=
  (arr.set i (arr.getD j 0)).set j (arr.getD i 0)

/-- Inner loop of `selection_sort`:
`for (; j < n; j++) if (arr[j] < arr[min_idx]) min_idx = j;` returning the final `min_idx`.
The bound `n` is an `int` and may be negative. -/
def find_min (arr : List Int) (n : Int) (min_idx j : Nat) : Nat :=
  if (j : Int) < n then
    find_min arr n (if arr.getD j 0 < arr.getD min_idx 0 then j else min_idx) (j + 1)
  else min_idx
termination_by (n - j).toNat
decreasing_by omega

/-- Outer loop of `selection_sort`, entered with the current value of `i`:
`for (; i < n - 1; i++) { min_idx = i; <inner loop from j = i + 1>; swap(arr[i], arr[min_idx]); }`.
The test `i < n - 1` is a signed comparison. -/
def selection_loop (arr : List Int) (n : Int) (i : Nat) : List Int :=
  if (i : Int) < n - 1 then
    selection_loop (swap arr i (find_min arr n i (i + 1))) n (i + 1)
  else arr
termination_by (n - i).toNat
decreasing_by omega

/-- `vector<int> selection_sort(vector<int> arr)`.  `int n = arr.size()` narrows the size;
the loop test computes `n - 1`, which overflows when `n` is the least `int`. -/
def selection_sort (arr : List Int) : Option (List Int) :=
  if fits_int32 (to_int32 (arr.length : Int) - 1) = true then
    some (selection_loop arr (to_int32 (arr.length : Int)) 0)
  else none

/-! Merge sort (source lines 53-79). -/

/-- The vector built from an iterator range, `{arr.begin() + first, arr.begin() + last}`;
`none` when `[first, last)` is not a valid range of `arr`. -/
def range_copy (arr : List Int) (first last : Int) : Option (List Int) :=
  if 0 ≤ first ∧ first ≤ last ∧ last ≤ (arr.length : Int) then
    some ((arr.drop first.toNat).take (last - first).toNat)
  else none

/-- First merge loop, entered in state `(i, j, result)`:
`while (i < left_part.size() && j < right_part.size())`
`  if (left_part[i] <= right_part[j]) result.push_back(left_part[i++]);`
`  else result.push_back(right_part[j++]);`
It returns the state on exit; a read outside a vector gives `none`. -/
def merge_loop (left_part right_part : List Int) (i j : Nat) (result : List Int) :
    Option (Nat × Nat × List Int) :=
  if i < left_part.length ∧ j < right_part.length then
    match left_part[i]?, right_part[j]? with
    | some a, some b =>
      if a ≤ b then merge_loop left_part right_part (i + 1) j (result ++ [a])
      else merge_loop left_part right_part i (j + 1) (result ++ [b])
    | _, _ => none
  else some (i, j, result)
termination_by (left_part.length - i) + (right_part.length - j)

/-- The copy loops `while (i < part.size()) result.push_back(part[i++]);`. -/
def copy_rest (part : List Int) (i : Nat) (result : List Int) : Option (List Int) :=
  if i < part.length then
    match part[i]? with
    | some a => copy_rest part (i + 1) (result ++ [a])
    | none => none
  else some result
termination_by part.length - i

/-- The three merge loops of `merge_sort_helper` run one after the other from the loop state
`(i, j, result)`. -/
def merge_from (left_part right_part : List Int) (i j : Nat) (result : List Int) :
    Option (List Int) :=
  match merge_loop left_part right_part i j result with
  | none => none
  | some (i, j, result) =>
    match copy_rest left_part i result with
    | none => none
    | some result => copy_rest right_part j result

/-- The merge step of `merge_sort_helper`: `vector<int> result; int i = 0, j = 0;` followed by
the three loops. -/
def merge_parts (left_part right_part : List Int) : Option (List Int) :=
  merge_from left_part right_part 0 0 []

/-- `vector<int> merge_sort_helper(vector<int>& arr, int left, int right)`.  The first argument
bounds the recursion depth; `(left + right) / 2` is C++ integer division, which truncates,
and the `int` sum `left + right` must not overflow. -/
def merge_sort_helper : Nat → List Int → Int → Int → Option (List Int)
  | 0, _, _, _ => none
  | fuel + 1, arr, left, right =>
    if left ≥ right then range_copy arr left (right + 1)
    else if fits_int32 (left + right) = true then
      match merge_sort_helper fuel arr left (Int.tdiv (left + right) 2) with
      | none => none
      | some left_part =>
        match merge_sort_helper fuel arr (Int.tdiv (left + right) 2 + 1) right with
        | none => none
        | some right_part => merge_parts left_part right_part
    else none

/-- `vector<int> merge_sort(vector<int> arr)`: the call
`merge_sort_helper(arr, 0, arr.size() - 1)`; the second argument is computed in `size_t` and
narrowed to `int`, which gives `-1` for the empty vector.  A range of `k` elements needs
recursion depth at most `k + 1`. -/
def merge_sort (arr : List Int) : Option (List Int) :=
  merge_sort_helper (arr.length + 1) arr 0 (size_minus_one 64 arr.length)

/-! Heapsort (source lines 86-96). -/

/-- The part of `std::priority_queue<int, vector<int>, greater<int>>` that `heapsort` uses,
with the contract of the C++ standard: the queue holds a multiset of values (`elems`), the
range constructor `build` stores exactly the given values, `empty` tests for no values, `top`
is a smallest stored value and `pop` removes one occurrence of it. -/
structure MinPriorityQueue where
  /-- States of the queue. -/
  Queue : Type
  /-- The values stored in a queue. -/
  elems : Queue → Multiset Int
  /-- The constructor `priority_queue(first, last)`. -/
  build : List Int → Queue
  /-- The member `empty()`. -/
  empty : Queue → Bool
  /-- The member `top()`. -/
  top : Queue → Int
  /-- The member `pop()`. -/
  pop : Queue → Queue
  elems_build : ∀ l : List Int, elems (build l) = (l : Multiset Int)
  empty_iff : ∀ q, empty q = true ↔ elems q = 0
  top_mem : ∀ q, elems q ≠ 0 → top q ∈ elems q
  top_le : ∀ q x, x ∈ elems q → top q ≤ x
  elems_pop : ∀ q, elems q ≠ 0 → elems (pop q) = (elems q).erase (top q)

/-- Popping a non-empty queue leaves fewer values in it. -/
theorem MinPriorityQueue.card_pop_lt (Q : MinPriorityQueue) (q : Q.Queue)
    (h : ¬ Q.empty q = true) :
    Multiset.card (Q.elems (Q.pop q)) < Multiset.card (Q.elems q) := by
  have hne : Q.elems q ≠ 0 := fun h0 => h ((Q.empty_iff q).mpr h0)
  rw [Q.elems_pop q hne]
  exact Multiset.card_erase_lt_of_mem (Q.top_mem q hne)

/-- The loop of `heapsort`:
`while (!min_heap.empty()) { sorted.push_back(min_heap.top()); min_heap.pop(); }`. -/
def heapsort_loop (Q : MinPriorityQueue) (min_heap : Q.Queue) (sorted : List Int) : List Int :=
  if Q.empty min_heap = true then sorted
  else heapsort_loop Q (Q.pop min_heap) (sorted ++ [Q.top min_heap])
termination_by Multiset.card (Q.elems min_heap)
decreasing_by exact Q.card_pop_lt min_heap (by assumption)

/-- `vector<int> heapsort(vector<int> arr)`. -/
def heapsort (Q : MinPriorityQueue) (arr : List Int) : List Int :=
  heapsort_loop Q (Q.build arr) []

/-- A priority queue meeting the contract: the stored values kept as an ascending list. -/
def listQueue : MinPriorityQueue where
  Queue := { l : List Int // List.Sorted (· ≤ ·) l }
  elems q := (q.1 : Multiset Int)
  build l := ⟨l.insertionSort (· ≤ ·), List.sorted_insertionSort _ l⟩
  empty q := q.1.isEmpty
  top q := q.1.headD 0
  pop q := ⟨q.1.tail, q.2.tail⟩
  elems_build l := Multiset.coe_eq_coe.mpr (List.perm_insertionSort _ l)
  empty_iff q := by
    rcases q with ⟨l, hl⟩
    cases l <;> simp
  top_mem q h := by
    rcases q with ⟨l, hl⟩
    cases l with
    | nil => simp at h
    | cons a t => simp
  top_le q x hx := by
    rcases q with ⟨l, hl⟩
    cases l with
    | nil => simp at hx
    | cons a t =>
      simp only [Multiset.mem_coe, List.mem_cons] at hx
      rcases hx with rfl | hx
      · simp
      · exact List.rel_of_sorted_cons hl x hx
  elems_pop q h := by
    rcases q with ⟨l, hl⟩
    cases l with
    | nil => simp at h
    | cons a t => simp

/-! Quicksort (source lines 103-121). -/

/-- The partition loop of `quicksort`, with the buckets `(left, mid, right)` as state:
`for (int x : arr) { if (x < pivot) left.push_back(x);`
`  else if (x == pivot) mid.push_back(x); else right.push_back(x); }`. -/
def partition_loop (pivot : Int) :
    List Int → List Int × List Int × List Int → List Int × List Int × List Int
  | [], buckets => buckets
  | x :: xs, (left, mid, right) =>
    if x < pivot then partition_loop pivot xs (left ++ [x], mid, right)
    else if x = pivot then partition_loop pivot xs (left, mid ++ [x], right)
    else partition_loop pivot xs (left, mid, right ++ [x])

/-- The partition loop appends to each bucket the matching elements, in their order. -/
theorem partition_loop_eq (pivot : Int) (xs left mid right : List Int) :
    partition_loop pivot xs (left, mid, right) =
      (left ++ xs.filter (fun x => decide (x < pivot)),
       mid ++ xs.filter (fun x => decide (x = pivot)),
       right ++ xs.filter (fun x => decide (pivot < x))) := by
  induction xs generalizing left mid right with
  | nil => simp [partition_loop]
  | cons x xs ih =>
    rw [partition_loop]
    by_cases h1 : x < pivot
    · have h2 : ¬ x = pivot := by omega
      have h3 : ¬ pivot < x := by omega
      simp [h1, h2, h3, ih]
    · by_cases h2 : x = pivot
      · have h3 : ¬ pivot < x := by omega
        simp [h1, h2, ih]
      · have h3 : pivot < x := by omega
        simp [h1, h2, h3, ih]

/-- With the pivot taken from the vector, the bucket `left` is shorter than the vector. -/
theorem partition_left_lt (arr : List Int) (pivot : Int) (hp : pivot ∈ arr) :
    (partition_loop pivot arr ([], [], [])).1.length < arr.length := by
  rw [partition_loop_eq]
  simp only [List.nil_append]
  exact List.length_filter_lt_length_iff_exists.mpr ⟨pivot, hp, by simp⟩

/-- With the pivot taken from the vector, the bucket `right` is shorter than the vector. -/
theorem partition_right_lt (arr : List Int) (pivot : Int) (hp : pivot ∈ arr) :
    (partition_loop pivot arr ([], [], [])).2.2.length < arr.length := by
  rw [partition_loop_eq]
  simp only [List.nil_append]
  exact List.length_filter_lt_length_iff_exists.mpr ⟨pivot, hp, by simp⟩

/-- `vector<int> quicksort(vector<int> arr)`; the pivot is `arr[arr.size() / 2]`. -/
def quicksort (arr : List Int) : List Int :=
  if h : arr.length ≤ 1 then arr
  else
    let pivot := arr.get ⟨arr.length / 2, by omega⟩
    let buckets := partition_loop pivot arr ([], [], [])
    (quicksort buckets.1 ++ buckets.2.1) ++ quicksort buckets.2.2
termination_by arr.length
decreasing_by
  · exact partition_left_lt arr _ (List.get_mem _ _ _)
  · exact partition_right_lt arr _ (List.get_mem _ _ _)

/-! Equality check and driver (source lines 131-177). -/

/-- The loop of `all_equal`, entered with the current value of `i`:
`for (; i < results.size(); i++) if (results[i] != results[0]) return false;`
followed by `return true;`. -/
def all_equal_loop (results : List (List Int)) (i : Nat) : Bool :=
  if h : i < results.length then
    if results.get ⟨i, h⟩ ≠ results.get ⟨0, by omega⟩ then false
    else all_equal_loop results (i + 1)
  else true
termination_by results.length - i

/-- `bool all_equal(const vector<vector<int>>& results)`. -/
def all_equal (results : List (List Int)) : Bool :=
  all_equal_loop results 1

/-- The first component of `measure_sort(name, data, sort_func)`: the sorting function run on
its own copy of `data`. -/
def measure_sort (data : List Int) (sort_func : List Int → Option (List Int)) :
    Option (List Int) :=
  sort_func data

/-- The vector `results` that `main` has collected when it calls `all_equal`, for the
generated input `original`. -/
def main_results (Q : MinPriorityQueue) (original : List Int) : Option (List (List Int)) :=
  match measure_sort original selection_sort with
  | none => none
  | some r1 =>
    match measure_sort original merge_sort with
    | none => none
    | some r2 =>
      match measure_sort original (fun a => some (heapsort Q a)) with
      | none => none
      | some r3 =>
        match measure_sort original (fun a => some (quicksort a)) with
        | none => none
        | some r4 => some ((([] ++ [r1]) ++ [r2]) ++ [r3] ++ [r4])

/-- The line `main` prints after the comparison. -/
def main_verdict (Q : MinPriorityQueue) (original : List Int) : Option String :=
  match main_results Q original with
  | none => none
  | some results =>
    if all_equal results = true then some "All algorithms produced identical sorted results."
    else some "Mismatch detected in sorting results."

/-! The buckets of quicksort as the specification words them. -/

/-- The elements of `arr` strictly less than the pivot `p`, in their original order. -/
def less_than_pivot (p : Int) (arr : List Int) : List Int :=
  arr.filter (fun x => decide (x < p))

/-- The elements of `arr` equal to the pivot `p`, in their original order. -/
def equal_to_pivot (p : Int) (arr : List Int) : List Int :=
  arr.filter (fun x => decide (x = p))

/-- The elements of `arr` strictly greater than the pivot `p`, in their original order. -/
def greater_than_pivot (p : Int) (arr : List Int) : List Int :=
  arr.filter (fun x => decide (p < x))

/-! The calls of `merge_sort_helper` in a run of `merge_sort`. -/

/-- `HelperCall arr left right`: the call `merge_sort_helper(arr, left, right)` is made while
`merge_sort(arr)` runs.  The first call is the one in `merge_sort`; a call that does not take
the base case, that is one with `left < right`, and whose sum `left + right` does not
overflow, makes the two recursive calls on `(left, mid)` and `(mid + 1, right)` with
`mid = (left + right) / 2`. -/
inductive HelperCall (arr : List Int) : Int → Int → Prop
  | entry : HelperCall arr 0 (size_minus_one 64 arr.length)
  | left_half {left right : Int} :
      HelperCall arr left right → left < right → fits_int32 (left + right) = true →
        HelperCall arr left (Int.tdiv (left + right) 2)
  | right_half {left right : Int} :
      HelperCall arr left right → left < right → fits_int32 (left + right) = true →
        HelperCall arr (Int.tdiv (left + right) 2 + 1) right

/-! Random vector generation (source lines 15-24). -/

/-- The ways a call of `generate_random_vector` can end.  The source defines no error type and
contains no `throw`: its own exit is `return vec;`.  `length_error` is the exception the
constructor `vector<int> vec(n)` throws for a negative `n`, which it receives as a size
beyond `max_size()`.  `undefined_behaviour` is a call that violates the precondition
`a <= b` of `uniform_int_distribution<>(a, b)`.  `invalid_range_error` stands for the
`InvalidRangeError` that the specification names; no path of the source produces it. -/
inductive GenOutcome where
  | returned (vec : List Int)
  | length_error
  | undefined_behaviour
  | invalid_range_error

/-- `vector<int> generate_random_vector(int n, int min_val, int max_val)`.  The random engine
is a parameter: `draw min_val max_val k` is the value of the `k`-th evaluation of `dis(gen)`
for the distribution object constructed from `(min_val, max_val)`.  The function first
constructs the distribution, which requires `min_val <= max_val`, then the vector of `n`
elements, assigns them successive draws and returns the vector; it never compares `min_val`
with `max_val` itself.  The entropy source of `random_device` and the memory for the vector
are taken to be available. -/
def generate_random_vector (draw : Int → Int → Nat → Int) (n : Int) (min_val max_val : Int) :
    GenOutcome :=
  if max_val < min_val then GenOutcome.undefined_behaviour
  else if n < 0 then GenOutcome.length_error
  else GenOutcome.returned ((List.range n.toNat).map (draw min_val max_val))

/-! Merge sort on labelled elements.  The code of `merge_sort_helper` run on vectors of
`(value, label)` pairs, with the comparison `left_part[i] <= right_part[j]` looking at the
values only; the labels are carried along. -/

/-- The range constructor `{arr.begin() + first, arr.begin() + last}` on labelled elements. -/
def labelled_range_copy {L : Type} (arr : List (Int × L)) (first last : Int) :
    Option (List (Int × L)) :=
  if 0 ≤ first ∧ first ≤ last ∧ last ≤ (arr.length : Int) then
    some ((arr.drop first.toNat).take (last - first).toNat)
  else none

/-- The first merge loop on labelled elements; the test is `left_part[i] <= right_part[j]` on
the values. -/
def labelled_merge_loop {L : Type} (left_part right_part : List (Int × L)) (i j : Nat)
    (result : List (Int × L)) : Option (Nat × Nat × List (Int × L)) :=
  if i < left_part.length ∧ j < right_part.length then
    match left_part[i]?, right_part[j]? with
    | some a, some b =>
      if a.1 ≤ b.1 then labelled_merge_loop left_part right_part (i + 1) j (result ++ [a])
      else labelled_merge_loop left_part right_part i (j + 1) (result ++ [b])
    | _, _ => none
  else some (i, j, result)
termination_by (left_part.length - i) + (right_part.length - j)

/-- The copy loops on labelled elements. -/
def labelled_copy_rest {L : Type} (part : List (Int × L)) (i : Nat)
    (result : List (Int × L)) : Option (List (Int × L)) :=
  if i < part.length then
    match part[i]? with
    | some a => labelled_copy_rest part (i + 1) (result ++ [a])
    | none => none
  else some result
termination_by part.length - i

/-- The three merge loops on labelled elements, from the loop state `(i, j, result)`. -/
def labelled_merge_from {L : Type} (left_part right_part : List (Int × L)) (i j : Nat)
    (result : List (Int × L)) : Option (List (Int × L)) :=
  match labelled_merge_loop left_part right_part i j result with
  | none => none
  | some (i, j, result) =>
    match labelled_copy_rest left_part i result with
    | none => none
    | some result => labelled_copy_rest right_part j result

/-- The merge step on labelled elements. -/
def labelled_merge_parts {L : Type} (left_part right_part : List (Int × L)) :
    Option (List (Int × L)) :=
  labelled_merge_from left_part right_part 0 0 []

/-- The recursion of `merge_sort_helper` on labelled elements. -/
def labelled_merge_sort_helper {L : Type} :
    Nat → List (Int × L) → Int → Int → Option (List (Int × L))
  | 0, _, _, _ => none
  | fuel + 1, arr, left, right =>
    if left ≥ right then labelled_range_copy arr left (right + 1)
    else if fits_int32 (left + right) = true then
      match labelled_merge_sort_helper fuel arr left (Int.tdiv (left + right) 2) with
      | none => none
      | some left_part =>
        match labelled_merge_sort_helper fuel arr (Int.tdiv (left + right) 2 + 1) right with
        | none => none
        | some right_part => labelled_merge_parts left_part right_part
    else none

/-- The entry point `merge_sort` on labelled elements. -/
def labelled_merge_sort {L : Type} (arr : List (Int × L)) : Option (List (Int × L)) :=
  labelled_merge_sort_helper (arr.length + 1) arr 0 (size_minus_one 64 arr.length)

/-! Machine integers: narrowing and the range of `int`. -/

theorem fits_int32_iff (x : Int) : fits_int32 x = true ↔ -2 ^ 31 ≤ x ∧ x ≤ 2 ^ 31 - 1 := by
  simp [fits_int32]

theorem to_int32_of_fits (x : Int) (h1 : -2 ^ 31 ≤ x) (h2 : x ≤ 2 ^ 31 - 1) :
    to_int32 x = x := by
  unfold to_int32
  rw [Int.emod_eq_of_lt (by omega) (by omega)]
  omega

theorem size_minus_one_eq (w size : Nat) (hw : 32 ≤ w) (hs : size ≤ 2 ^ 31) :
    size_minus_one w size = (size : Int) - 1 := by
  obtain ⟨k, rfl⟩ : ∃ k, w = 32 + k := ⟨w - 32, by omega⟩
  unfold size_minus_one to_int32
  have hpow : (2 : Int) ^ (32 + k) = 2 ^ 32 * 2 ^ k := by rw [pow_add]
  have hk : (1 : Int) ≤ 2 ^ k := one_le_pow₀ (by norm_num)
  rcases Nat.eq_zero_or_pos size with h0 | hpos
  · subst h0
    have hM : (1 : Int) ≤ 2 ^ (32 + k) := one_le_pow₀ (by norm_num)
    have e1 : ((((0 : Nat) : Int) - 1) % 2 ^ (32 + k)) = 2 ^ (32 + k) - 1 := by
      have r1 : (((0 : Nat) : Int) - 1) = (2 ^ (32 + k) - 1) + 2 ^ (32 + k) * (-1) := by
        push_cast; ring
      rw [r1, Int.add_mul_emod_self_left, Int.emod_eq_of_lt (by omega) (by omega)]
    rw [e1, hpow]
    have e2 : ((2 : Int) ^ 31 + (2 ^ 32 * 2 ^ k - 1)) % 2 ^ 32 = 2 ^ 31 - 1 := by
      have r2 : ((2 : Int) ^ 31 + (2 ^ 32 * 2 ^ k - 1)) = (2 ^ 31 - 1) + 2 ^ 32 * 2 ^ k := by
        ring
      rw [r2, Int.add_mul_emod_self_left, Int.emod_eq_of_lt (by norm_num) (by norm_num)]
    rw [e2]; norm_num
  · have hlt : ((size : Int) - 1) < 2 ^ (32 + k) := by
      rw [hpow]
      have : (size : Int) ≤ 2 ^ 31 := by exact_mod_cast hs
      nlinarith
    rw [Int.emod_eq_of_lt (by omega) hlt]
    have : (size : Int) ≤ 2 ^ 31 := by exact_mod_cast hs
    rw [Int.emod_eq_of_lt (by omega) (by omega)]
    ring

/-! Selection sort: the loops keep the length, permute, and order the vector. -/

theorem swap_length (arr : List Int) (i j : Nat) : (swap arr i j).length = arr.length := by
  simp [swap]

theorem swap_getD (arr : List Int) (i j k : Nat) (hi : i < arr.length) (hj : j < arr.length) :
    (swap arr i j).getD k 0 =
      if k = j then arr.getD i 0 else if k = i then arr.getD j 0 else arr.getD k 0 := by
  simp only [swap, List.getD_eq_getElem?_getD, List.getElem?_set, List.length_set]
  by_cases h1 : j = k
  · subst h1; simp [hj]
  · by_cases h2 : i = k
    · subst h2; simp [h1, hi, Ne.symm h1]
    · simp [h1, h2, Ne.symm h1, Ne.symm h2]

theorem swap_perm (arr : List Int) (i j : Nat) (hi : i < arr.length) (hj : j < arr.length) :
    List.Perm (swap arr i j) arr := by
  rw [List.perm_iff_count]
  intro b
  have hj2 : j < (arr.set i (arr.getD j 0)).length := by simpa using hj
  have e1 : (arr.set i (arr.getD j 0))[j] = arr[j] := by
    rw [List.getElem_set]; split
    · rename_i h; subst h; simp [List.getD_eq_getElem?_getD, hi]
    · rfl
  have ci : arr[i] = b → 0 < arr.count b := by
    intro h; subst h; exact List.count_pos_iff.mpr (List.getElem_mem _)
  simp only [swap]
  rw [List.count_set _ _ _ _ hj2, List.count_set _ _ _ _ hi, e1]
  simp only [List.getD_eq_getElem?_getD, List.getElem?_eq_getElem hi, List.getElem?_eq_getElem hj,
    Option.getD_some, beq_iff_eq]
  by_cases h1 : arr[i] = b <;> by_cases h2 : arr[j] = b <;> simp [h1, h2]
  all_goals
    have hpos := ci h1
    omega

theorem find_min_spec (arr : List Int) (n : Int) (lo m j : Nat)
    (h1 : lo ≤ m) (h2 : m < j) (h3 : (j : Int) ≤ n)
    (h4 : ∀ k, lo ≤ k → k < j → arr.getD m 0 ≤ arr.getD k 0) :
    lo ≤ find_min arr n m j ∧ (find_min arr n m j : Int) < n ∧
      ∀ k : Nat, lo ≤ k → (k : Int) < n →
        arr.getD (find_min arr n m j) 0 ≤ arr.getD k 0 := by
  induction m, j using find_min.induct arr n with
  | case1 m j hj ih =>
    rw [find_min]
    simp only [hj, if_true]
    by_cases hc : arr.getD j 0 < arr.getD m 0
    · simp only [hc, if_true, dite_true] at ih ⊢
      apply ih (by omega) (by omega) (by omega)
      intro k hk1 hk2
      by_cases hkj : k = j
      · subst hkj; exact le_refl _
      · exact le_trans (le_of_lt hc) (h4 k hk1 (by omega))
    · simp only [hc, if_false, dite_false] at ih ⊢
      apply ih h1 (by omega) (by omega)
      intro k hk1 hk2
      by_cases hkj : k = j
      · subst hkj; exact not_lt.mp hc
      · exact h4 k hk1 (by omega)
  | case2 m j hj =>
    rw [find_min]
    simp only [hj, if_false]
    refine ⟨h1, by omega, ?_⟩
    intro k hk1 hk2
    exact h4 k hk1 (by omega)

theorem find_min_start (arr : List Int) (n : Int) (i : Nat) (h : ((i + 1 : Nat) : Int) ≤ n) :
    i ≤ find_min arr n i (i + 1) ∧ (find_min arr n i (i + 1) : Int) < n ∧
      ∀ k : Nat, i ≤ k → (k : Int) < n →
        arr.getD (find_min arr n i (i + 1)) 0 ≤ arr.getD k 0 := by
  apply find_min_spec arr n i i (i + 1) (le_refl _) (by omega) h
  intro k hk1 hk2
  have hki : k = i := by omega
  subst hki
  exact le_refl _

theorem selection_loop_length (arr : List Int) (n : Int) (i : Nat) :
    (selection_loop arr n i).length = arr.length := by
  induction arr, n, i using selection_loop.induct with
  | case1 arr n i h ih => rw [selection_loop]; simp only [h, if_true]; rw [ih, swap_length]
  | case2 arr n i h => rw [selection_loop]; simp only [h, if_false]

theorem selection_loop_perm (arr : List Int) (n : Int) (i : Nat)
    (hn : n = (arr.length : Int)) :
    List.Perm (selection_loop arr n i) arr := by
  induction arr, n, i using selection_loop.induct with
  | case1 arr n i h ih =>
    rw [selection_loop]; simp only [h, if_true]
    have hm := find_min_start arr n i (by omega)
    refine (ih (by rw [swap_length]; exact hn)).trans ?_
    exact swap_perm arr i _ (by omega) (by omega)
  | case2 arr n i h => rw [selection_loop]; simp only [h, if_false]; exact List.Perm.refl _

theorem selection_loop_ordered (arr : List Int) (n : Int) (i : Nat)
    (hn : n = (arr.length : Int))
    (inv : ∀ a b : Nat, a < b → (b : Int) < n → a < i → arr.getD a 0 ≤ arr.getD b 0) :
    ∀ a b : Nat, a < b → (b : Int) < n →
      (selection_loop arr n i).getD a 0 ≤ (selection_loop arr n i).getD b 0 := by
  induction arr, n, i using selection_loop.induct with
  | case1 arr n i h ih =>
    rw [selection_loop]; simp only [h, if_true]
    obtain ⟨m1, m2, m3⟩ := find_min_start arr n i (by omega)
    apply ih (by rw [swap_length]; exact hn)
    intro a b hab hb ha
    have hi : i < arr.length := by omega
    have hm : find_min arr n i (i + 1) < arr.length := by omega
    rw [swap_getD arr i _ a hi hm, swap_getD arr i _ b hi hm]
    by_cases hai : a = i
    · subst hai
      by_cases ham : a = find_min arr n a (a + 1)
      · rw [if_pos ham]
        have hbm : b ≠ find_min arr n a (a + 1) := by omega
        rw [if_neg hbm, if_neg (by omega)]
        have := m3 b (by omega) hb
        rw [← ham] at this; exact this
      · rw [if_neg ham, if_pos rfl]
        split
        · exact m3 a (le_refl _) (by omega)
        · rw [if_neg (by omega)]; exact m3 b (by omega) hb
    · have ha2 : a < i := by omega
      rw [if_neg (by omega), if_neg hai]
      split
      · exact inv a i ha2 (by omega) ha2
      · split
        · exact inv a _ (by omega) m2 ha2
        · exact inv a b hab hb ha2
  | case2 arr n i h =>
    rw [selection_loop]; simp only [h, if_false]
    intro a b hab hb
    exact inv a b hab hb (by omega)

theorem selection_sort_eq (S : List Int) (h : S.length < 2 ^ 31) :
    selection_sort S = some (selection_loop S (S.length : Int) 0) := by
  have hl : (S.length : Int) < 2 ^ 31 := by exact_mod_cast h
  have e : to_int32 (S.length : Int) = (S.length : Int) :=
    to_int32_of_fits _ (by omega) (by omega)
  unfold selection_sort
  rw [e, if_pos ((fits_int32_iff _).mpr ⟨by omega, by omega⟩)]

theorem selection_sort_spec (S : List Int) (h : S.length < 2 ^ 31) :
    ∃ O : List Int, selection_sort S = some O ∧ List.Sorted (· ≤ ·) O ∧ List.Perm O S := by
  refine ⟨_, selection_sort_eq S h, ?_, selection_loop_perm S _ 0 rfl⟩
  rw [List.Sorted, List.pairwise_iff_getElem]
  intro a b ha hb hab
  have hl : (selection_loop S (S.length : Int) 0).length = S.length :=
    selection_loop_length S _ _
  have := selection_loop_ordered S (S.length : Int) 0 rfl (by intro a b _ _ h; omega) a b hab
    (by omega)
  rw [List.getD_eq_getElem _ _ ha, List.getD_eq_getElem _ _ hb] at this
  exact this

/-- With a size that narrows to an `int` of at most 1 the outer loop is never entered. -/
theorem selection_sort_no_loop (S : List Int)
    (h1 : fits_int32 (to_int32 (S.length : Int) - 1) = true)
    (h2 : to_int32 (S.length : Int) ≤ 1) : selection_sort S = some S := by
  unfold selection_sort
  rw [if_pos h1, selection_loop, if_neg (by omega)]

/-- With a size that narrows to the least `int`, `n - 1` overflows. -/
theorem selection_sort_overflow (S : List Int)
    (h : to_int32 (S.length : Int) = -2 ^ 31) : selection_sort S = none := by
  unfold selection_sort
  rw [h, if_neg]
  intro hf
  have hfit := (fits_int32_iff _).mp hf
  omega

/-! Merge sort: the merge loops compute the ordered merge; the helper sorts its range. -/

theorem copy_rest_eq (part : List Int) (i : Nat) (result : List Int) :
    copy_rest part i result = some (result ++ part.drop i) := by
  induction i, result using copy_rest.induct part with
  | case1 i result h a ha ih =>
    rw [copy_rest]; simp only [h, if_true, ha]
    rw [ih, List.append_assoc]
    have := List.getElem?_eq_some_iff.mp ha
    obtain ⟨h', rfl⟩ := this
    simp
  | case2 i result h hn =>
    exfalso
    rw [List.getElem?_eq_getElem h] at hn; cases hn
  | case3 i result h =>
    rw [copy_rest]; simp only [h, if_false]
    rw [List.drop_of_length_le (by omega)]; simp

theorem drop_eq_cons_of_getElem? {l : List Int} {i : Nat} {a : Int} (h : l[i]? = some a) :
    l.drop i = a :: l.drop (i + 1) := by
  obtain ⟨h', rfl⟩ := List.getElem?_eq_some_iff.mp h
  exact (List.getElem_cons_drop l i h').symm

theorem merge_from_eq (L R : List Int) (i j : Nat) (result : List Int) :
    merge_from L R i j result =
      some (result ++ List.merge (L.drop i) (R.drop j) (fun a b => decide (a ≤ b))) := by
  induction i, j, result using merge_loop.induct L R with
  | case1 i j result h a b hb ha hab ih =>
    unfold merge_from at ih ⊢
    rw [merge_loop]; simp only [h, and_self, if_true, ha, hb, hab]
    rw [ih, drop_eq_cons_of_getElem? ha, drop_eq_cons_of_getElem? hb]
    rw [List.cons_merge_cons_pos _ _ _ (by simpa using hab)]
    rw [← drop_eq_cons_of_getElem? hb]; simp
  | case2 i j result h a b hb ha hab ih =>
    unfold merge_from at ih ⊢
    rw [merge_loop]; simp only [h, and_self, if_true, ha, hb, hab, if_false]
    rw [ih, drop_eq_cons_of_getElem? ha, drop_eq_cons_of_getElem? hb]
    rw [List.cons_merge_cons_neg _ _ _ (by simpa using hab)]
    rw [← drop_eq_cons_of_getElem? ha]; simp
  | case3 i j result h hn =>
    exfalso
    exact hn _ _ (List.getElem?_eq_getElem h.1) (List.getElem?_eq_getElem h.2)
  | case4 i j result h =>
    unfold merge_from
    rw [merge_loop]; simp only [h, if_false]
    simp only [copy_rest_eq]
    by_cases hi : i < L.length
    · have hj : R.length ≤ j := by
        by_contra hc; exact h ⟨hi, by omega⟩
      rw [List.drop_of_length_le hj]; simp
    · rw [List.drop_of_length_le (by omega)]; simp

theorem merge_parts_eq (L R : List Int) :
    merge_parts L R = some (List.merge L R (fun a b => decide (a ≤ b))) :=
  merge_from_eq L R 0 0 []

theorem merge_parts_sorted (L R : List Int) (hL : List.Sorted (· ≤ ·) L)
    (hR : List.Sorted (· ≤ ·) R) :
    List.Sorted (· ≤ ·) (List.merge L R (fun a b => decide (a ≤ b))) :=
  List.Sorted.merge hL hR

theorem slice_append (arr : List Int) (l m e : Nat) (h1 : l ≤ m) (h2 : m ≤ e) :
    (arr.drop l).take (m - l) ++ (arr.drop m).take (e - m) = (arr.drop l).take (e - l) := by
  have : e - l = (m - l) + (e - m) := by omega
  rw [this, List.take_add, List.drop_drop]
  have : l + (m - l) = m := by omega
  rw [this]

theorem merge_sort_helper_spec (fuel : Nat) : ∀ (arr : List Int) (l e : Nat),
    l ≤ e → e ≤ arr.length → e - l < fuel → e ≤ 2 ^ 30 + 1 →
    ∃ O, merge_sort_helper fuel arr (l : Int) ((e : Int) - 1) = some O ∧
      List.Sorted (· ≤ ·) O ∧ List.Perm O ((arr.drop l).take (e - l)) := by
  induction fuel with
  | zero => intro arr l e _ _ h; omega
  | succ fuel ih =>
    intro arr l e hle he hf hbig
    rw [merge_sort_helper]
    by_cases hb : (l : Int) ≥ (e : Int) - 1
    · rw [if_pos hb]
      refine ⟨(arr.drop l).take (e - l), ?_, ?_, List.Perm.refl _⟩
      · unfold range_copy
        rw [if_pos (by omega)]
        congr 2
        omega
      · have hlen : ((arr.drop l).take (e - l)).length ≤ 1 := by
          rw [List.length_take]; omega
        match hO : (arr.drop l).take (e - l), hlen with
        | [], _ => exact List.sorted_nil
        | [a], _ => exact List.sorted_singleton a
        | _ :: _ :: _, h => simp at h
    · rw [if_neg hb, if_pos ((fits_int32_iff _).mpr ⟨by omega, by omega⟩)]
      have hmid : Int.tdiv ((l : Int) + ((e : Int) - 1)) 2 = (((l + e - 1) / 2 : Nat) : Int) := by
        rw [Int.tdiv_eq_ediv (by omega) (by omega)]
        omega
      rw [hmid]
      have e1 : (((l + e - 1) / 2 : Nat) : Int) = (((l + e - 1) / 2 + 1 : Nat) : Int) - 1 := by
        omega
      have e2 : (((l + e - 1) / 2 : Nat) : Int) + 1 = (((l + e - 1) / 2 + 1 : Nat) : Int) := by
        omega
      obtain ⟨L, hL1, hL2, hL3⟩ :=
        ih arr l ((l + e - 1) / 2 + 1) (by omega) (by omega) (by omega) (by omega)
      obtain ⟨R, hR1, hR2, hR3⟩ :=
        ih arr ((l + e - 1) / 2 + 1) e (by omega) (by omega) (by omega) (by omega)
      rw [e2, hR1]
      rw [e1, hL1]
      simp only
      rw [merge_parts_eq]
      refine ⟨_, rfl, merge_parts_sorted L R hL2 hR2, ?_⟩
      refine (List.merge_perm_append _).trans ?_
      rw [← slice_append arr l ((l + e - 1) / 2 + 1) e (by omega) (by omega)]
      exact hL3.append hR3

theorem merge_sort_helper_root (fuel : Nat) (S : List Int) (hf : S.length < fuel)
    (h : S.length ≤ 2 ^ 30 + 1) :
    ∃ O, merge_sort_helper fuel S 0 (size_minus_one 64 S.length) = some O ∧
      List.Sorted (· ≤ ·) O ∧ List.Perm O S := by
  obtain ⟨O, h1, h2, h3⟩ := merge_sort_helper_spec fuel S 0 S.length
    (by omega) (le_refl _) (by omega) h
  refine ⟨O, ?_, h2, ?_⟩
  · rw [size_minus_one_eq 64 S.length (by norm_num) (by omega)]
    simpa using h1
  · simpa using h3

theorem merge_sort_spec (S : List Int) (h : S.length ≤ 2 ^ 30 + 1) :
    ∃ O, merge_sort S = some O ∧ List.Sorted (· ≤ ·) O ∧ List.Perm O S :=
  merge_sort_helper_root (S.length + 1) S (by omega) h

/-- A call `(left, right)` with `0 <= left < right` and `right >= 2^30 + 1` does not return:
on the way down the right halves a sum `left + right` leaves the range of `int`. -/
theorem merge_sort_helper_overflow (fuel : Nat) (arr : List Int) (right : Int)
    (hR : 2 ^ 30 + 1 ≤ right) : ∀ left : Int, 0 ≤ left → left < right →
    merge_sort_helper fuel arr left right = none := by
  induction fuel with
  | zero => intro left _ _; rw [merge_sort_helper]
  | succ fuel ih =>
    intro left h0 hl
    rw [merge_sort_helper, if_neg (by omega)]
    by_cases hf : fits_int32 (left + right) = true
    · rw [if_pos hf]
      have hfit := (fits_int32_iff _).mp hf
      have hmid : Int.tdiv (left + right) 2 = (left + right) / 2 :=
        Int.tdiv_eq_ediv (by omega) (by omega)
      have hnone := ih (Int.tdiv (left + right) 2 + 1) (by rw [hmid]; omega)
        (by rw [hmid]; omega)
      rw [hnone]
      cases merge_sort_helper fuel arr left (Int.tdiv (left + right) 2) <;> rfl
    · rw [if_neg hf]

/-- On a vector of `2^30 + 2` up to `2^31` elements `merge_sort` does not return. -/
theorem merge_sort_long_input (S : List Int) (h1 : 2 ^ 30 + 2 ≤ S.length)
    (h2 : S.length ≤ 2 ^ 31) : merge_sort S = none := by
  unfold merge_sort
  rw [size_minus_one_eq 64 S.length (by norm_num) h2]
  have h3 : ((2 ^ 30 + 2 : Nat) : Int) ≤ (S.length : Int) := by exact_mod_cast h1
  exact merge_sort_helper_overflow _ S _ (by push_cast at h3; omega) 0 (le_refl _)
    (by push_cast at h3; omega)

theorem merge_sort_replicate_none :
    merge_sort (List.replicate (2 ^ 30 + 2) (0 : Int)) = none :=
  merge_sort_long_input _ (by rw [List.length_replicate])
    (by rw [List.length_replicate]; norm_num)

/-! Heapsort: the extraction loop emits the stored values in ascending order. -/

theorem heapsort_loop_spec (Q : MinPriorityQueue) (q : Q.Queue) (sorted : List Int)
    (hs : List.Sorted (· ≤ ·) sorted) (hle : ∀ x ∈ sorted, ∀ y ∈ Q.elems q, x ≤ y) :
    List.Sorted (· ≤ ·) (heapsort_loop Q q sorted) ∧
      ((heapsort_loop Q q sorted : List Int) : Multiset Int) = (sorted : Multiset Int) + Q.elems q := by
  induction q, sorted using heapsort_loop.induct Q with
  | case1 q sorted h =>
    rw [heapsort_loop, if_pos h, (Q.empty_iff q).mp h]
    exact ⟨hs, by simp⟩
  | case2 q sorted h ih =>
    rw [heapsort_loop, if_neg h]
    have hne : Q.elems q ≠ 0 := fun h0 => h ((Q.empty_iff q).mpr h0)
    have hmem := Q.top_mem q hne
    have hpop := Q.elems_pop q hne
    have hs2 : List.Sorted (· ≤ ·) (sorted ++ [Q.top q]) := by
      rw [List.Sorted, List.pairwise_append]
      refine ⟨hs, List.pairwise_singleton _ _, ?_⟩
      intro a ha b hb
      simp only [List.mem_singleton] at hb
      subst hb
      exact hle a ha _ hmem
    have hle2 : ∀ x ∈ sorted ++ [Q.top q], ∀ y ∈ Q.elems (Q.pop q), x ≤ y := by
      intro x hx y hy
      rw [hpop] at hy
      have hy2 := Multiset.mem_of_mem_erase hy
      rw [List.mem_append, List.mem_singleton] at hx
      rcases hx with hx | rfl
      · exact hle x hx y hy2
      · exact Q.top_le q y hy2
    obtain ⟨i1, i2⟩ := ih hs2 hle2
    refine ⟨i1, ?_⟩
    rw [i2, hpop, ← Multiset.coe_add, add_assoc, Multiset.coe_singleton,
      Multiset.singleton_add, Multiset.cons_erase hmem]

theorem heapsort_sorted (Q : MinPriorityQueue) (S : List Int) :
    List.Sorted (· ≤ ·) (heapsort Q S) :=
  (heapsort_loop_spec Q (Q.build S) [] List.sorted_nil (by simp)).1

theorem heapsort_perm (Q : MinPriorityQueue) (S : List Int) : List.Perm (heapsort Q S) S := by
  have := (heapsort_loop_spec Q (Q.build S) [] List.sorted_nil (by simp)).2
  rw [Q.elems_build] at this
  exact Multiset.coe_eq_coe.mp (by simpa [heapsort] using this)

/-! Quicksort: the buckets partition the vector and the recursion orders it. -/

theorem three_way_perm (pivot : Int) (xs : List Int) :
    List.Perm ((xs.filter (fun x => decide (x < pivot)) ++ xs.filter (fun x => decide (x = pivot)))
      ++ xs.filter (fun x => decide (pivot < x))) xs := by
  induction xs with
  | nil => simp
  | cons x xs ih =>
    by_cases h1 : x < pivot
    · have h2 : ¬ x = pivot := by omega
      have h3 : ¬ pivot < x := by omega
      simp only [List.filter_cons, h1, h2, h3, decide_True, decide_False, if_true,
        Bool.false_eq_true, if_false, List.cons_append]
      exact ih.cons x
    · by_cases h2 : x = pivot
      · subst h2
        simp only [List.filter_cons, lt_irrefl, decide_True, decide_False, if_true,
          Bool.false_eq_true, if_false, List.append_assoc, List.cons_append]
        refine List.perm_middle.trans ?_
        rw [← List.append_assoc]; exact ih.cons x
      · have h3 : pivot < x := by omega
        simp only [List.filter_cons, h1, h2, h3, decide_True, decide_False, if_true,
          Bool.false_eq_true, if_false]
        exact List.perm_middle.trans (ih.cons x)

theorem quicksort_perm (S : List Int) : List.Perm (quicksort S) S := by
  induction S using quicksort.induct with
  | case1 arr h => rw [quicksort, dif_pos h]
  | case2 arr h pivot buckets ihl ihr =>
    rw [quicksort, dif_neg h]
    change List.Perm ((quicksort buckets.1 ++ buckets.2.1) ++ quicksort buckets.2.2) arr
    have hb : buckets = (arr.filter (fun x => decide (x < pivot)),
        arr.filter (fun x => decide (x = pivot)), arr.filter (fun x => decide (pivot < x))) := by
      simp only [buckets, partition_loop_eq, List.nil_append]
    refine ((ihl.append_right _).append ihr).trans ?_
    rw [hb]
    exact three_way_perm pivot arr

theorem quicksort_sorted (S : List Int) : List.Sorted (· ≤ ·) (quicksort S) := by
  induction S using quicksort.induct with
  | case1 arr h =>
    rw [quicksort, dif_pos h]
    match arr, h with
    | [], _ => exact List.sorted_nil
    | [a], _ => exact List.sorted_singleton a
    | _ :: _ :: _, h => simp at h
  | case2 arr h pivot buckets ihl ihr =>
    rw [quicksort, dif_neg h]
    change List.Sorted _ ((quicksort buckets.1 ++ buckets.2.1) ++ quicksort buckets.2.2)
    have hb : buckets = (arr.filter (fun x => decide (x < pivot)),
        arr.filter (fun x => decide (x = pivot)), arr.filter (fun x => decide (pivot < x))) := by
      simp only [buckets, partition_loop_eq, List.nil_append]
    have hl : ∀ a ∈ quicksort buckets.1, a < pivot := by
      intro a ha
      have := (quicksort_perm buckets.1).mem_iff.mp ha
      rw [hb] at this
      simpa using (List.mem_filter.mp this).2
    have hm : ∀ a ∈ buckets.2.1, a = pivot := by
      intro a ha
      rw [hb] at ha
      simpa using (List.mem_filter.mp ha).2
    have hr : ∀ a ∈ quicksort buckets.2.2, pivot < a := by
      intro a ha
      have := (quicksort_perm buckets.2.2).mem_iff.mp ha
      rw [hb] at this
      simpa using (List.mem_filter.mp this).2
    have hmid : List.Sorted (· ≤ ·) buckets.2.1 := by
      rw [List.Sorted, List.pairwise_iff_forall_sublist]
      intro a b hab
      have ha := hm a (hab.subset (by simp))
      have hb := hm b (hab.subset (by simp))
      omega
    rw [List.Sorted, List.pairwise_append]
    refine ⟨?_, ihr, ?_⟩
    · rw [List.pairwise_append]
      refine ⟨ihl, hmid, ?_⟩
      intro a ha b hb
      have := hl a ha; have := hm b hb; omega
    · intro a ha b hb
      have := hr b hb
      rcases List.mem_append.mp ha with ha | ha
      · have := hl a ha; omega
      · have := hm a ha; omega

/-! Shared facts used by the claims below. -/

theorem sorted_adjacent (O : List Int) (hO : List.Sorted (· ≤ ·) O) (i : Nat)
    (h : i + 1 < O.length) : O[i] ≤ O[i + 1] :=
  (List.pairwise_iff_getElem.mp hO) i (i + 1) (by omega) h (by omega)

theorem all_equal_loop_iff (results : List (List Int)) (i : Nat) :
    all_equal_loop results i = true ↔
      ∀ (k : Nat) (hk : k < results.length), i ≤ k →
        results.get ⟨k, hk⟩ = results.get ⟨0, by omega⟩ := by
  induction i using all_equal_loop.induct results with
  | case1 i h hne =>
    rw [all_equal_loop, dif_pos h, if_pos hne]
    constructor
    · intro hf; cases hf
    · intro hall; exact absurd (hall i h (le_refl _)) hne
  | case2 i h heq ih =>
    rw [all_equal_loop, dif_pos h, if_neg heq, ih]
    constructor
    · intro hall k hk hik
      by_cases hki : k = i
      · subst hki; exact not_not.mp heq
      · exact hall k hk (by omega)
    · intro hall k hk hik
      exact hall k hk (by omega)
  | case3 i h =>
    rw [all_equal_loop, dif_neg h]
    constructor
    · intro _ k hk hik; omega
    · intro _; rfl

theorem all_equal_four (O : List Int) : all_equal [O, O, O, O] = true := by
  unfold all_equal
  rw [all_equal_loop_iff]
  intro k hk _
  have hk4 : k < 4 := hk
  match k, hk4 with
  | 0, _ => rfl
  | 1, _ => rfl
  | 2, _ => rfl
  | 3, _ => rfl

theorem sorted_perm_unique {A B S : List Int} (hA : List.Sorted (· ≤ ·) A)
    (hB : List.Sorted (· ≤ ·) B) (pA : List.Perm A S) (pB : List.Perm B S) : A = B :=
  List.eq_of_perm_of_sorted (pA.trans pB.symm) hA hB

theorem sorted_of_length_le_one (S : List Int) (h : S.length ≤ 1) : List.Sorted (· ≤ ·) S := by
  match S, h with
  | [], _ => exact List.sorted_nil
  | [a], _ => exact List.sorted_singleton a
  | _ :: _ :: _, h => simp at h

/-! Long inputs: the first lengths at which the `int` indices fail. -/

theorem to_int32_two_pow_31 : to_int32 ((2 ^ 31 : Nat) : Int) = -2 ^ 31 := by
  norm_num [to_int32]

theorem to_int32_two_pow_31_succ : to_int32 ((2 ^ 31 + 1 : Nat) : Int) = 1 - 2 ^ 31 := by
  norm_num [to_int32]

theorem selection_sort_replicate_none :
    selection_sort (List.replicate (2 ^ 31) (0 : Int)) = none := by
  apply selection_sort_overflow
  rw [List.length_replicate]
  exact to_int32_two_pow_31

theorem selection_sort_long_unchanged :
    selection_sort (1 :: List.replicate (2 ^ 31) (0 : Int)) =
      some (1 :: List.replicate (2 ^ 31) (0 : Int)) := by
  apply selection_sort_no_loop
  · rw [List.length_cons, List.length_replicate, to_int32_two_pow_31_succ]
    exact (fits_int32_iff _).mpr ⟨by norm_num, by norm_num⟩
  · rw [List.length_cons, List.length_replicate, to_int32_two_pow_31_succ]
    norm_num

theorem long_input_heads :
    (1 :: List.replicate (2 ^ 31) (0 : Int))[0]? = some 1 ∧
      (1 :: List.replicate (2 ^ 31) (0 : Int))[1]? = some 0 := by
  constructor
  · rw [List.getElem?_cons_zero]
  · rw [List.getElem?_cons_succ, List.getElem?_replicate, if_pos (by norm_num)]

theorem main_of_merge_none (Q : MinPriorityQueue) (S : List Int) (h : merge_sort S = none) :
    main_results Q S = none ∧ main_verdict Q S = none := by
  have hr : main_results Q S = none := by
    unfold main_results measure_sort
    rw [h]
    cases selection_sort S <;> rfl
  refine ⟨hr, ?_⟩
  unfold main_verdict
  rw [hr]

theorem long_perm_heads :
    (List.replicate (2 ^ 31) (0 : Int) ++ [1])[0]? = some 0 := by
  rw [List.getElem?_append_left (by rw [List.length_replicate]; norm_num),
    List.getElem?_replicate, if_pos (by norm_num)]

theorem selection_sort_long_perm_unchanged :
    selection_sort (List.replicate (2 ^ 31) (0 : Int) ++ [1]) =
      some (List.replicate (2 ^ 31) (0 : Int) ++ [1]) := by
  apply selection_sort_no_loop
  · rw [List.length_append, List.length_replicate, List.length_singleton,
      to_int32_two_pow_31_succ]
    exact (fits_int32_iff _).mpr ⟨by norm_num, by norm_num⟩
  · rw [List.length_append, List.length_replicate, List.length_singleton,
      to_int32_two_pow_31_succ]
    norm_num

/-! The claims. -/

/-- Claim C1, amended: for every integer sequence `S` of at most `2^30 + 1` elements the four
algorithms return one and the same sequence `O`; the driver collects `[O, O, O, O]` in the
order selection sort, merge sort, heapsort, quicksort, `all_equal` returns true on it, and
the verdict line is the one for identical results, not the mismatch line. -/
theorem cross_algorithm_agreement (Q : MinPriorityQueue) (S : List Int)
    (h : S.length ≤ 2 ^ 30 + 1) :
    ∃ O : List Int,
      selection_sort S = some O ∧ merge_sort S = some O ∧ heapsort Q S = O ∧
      quicksort S = O ∧
      main_results Q S = some [O, O, O, O] ∧
      all_equal [O, O, O, O] = true ∧
      main_verdict Q S = some "All algorithms produced identical sorted results." := by
  obtain ⟨O, hm, hs, hp⟩ := merge_sort_spec S h
  obtain ⟨O1, hm1, hs1, hp1⟩ := selection_sort_spec S (by omega)
  have e1 : O1 = O := sorted_perm_unique hs1 hs hp1 hp
  subst e1
  have e3 : heapsort Q S = O1 :=
    sorted_perm_unique (heapsort_sorted Q S) hs (heapsort_perm Q S) hp
  have e4 : quicksort S = O1 :=
    sorted_perm_unique (quicksort_sorted S) hs (quicksort_perm S) hp
  have hr : main_results Q S = some [O1, O1, O1, O1] := by
    simp [main_results, measure_sort, hm, hm1, e3, e4]
  refine ⟨O1, hm1, hm, e3, e4, hr, all_equal_four O1, ?_⟩
  simp [main_verdict, hr, all_equal_four O1]

/-- Claim C1, amended, at the input `[3, 1, 2]`. -/
theorem cross_algorithm_agreement_witness :
    ([3, 1, 2] : List Int).length ≤ 2 ^ 30 + 1 ∧
      ∃ O : List Int,
        selection_sort [3, 1, 2] = some O ∧ merge_sort [3, 1, 2] = some O ∧
        heapsort listQueue [3, 1, 2] = O ∧ quicksort [3, 1, 2] = O ∧
        main_results listQueue [3, 1, 2] = some [O, O, O, O] ∧
        all_equal [O, O, O, O] = true ∧
        main_verdict listQueue [3, 1, 2] =
          some "All algorithms produced identical sorted results." :=
  ⟨by norm_num, cross_algorithm_agreement listQueue [3, 1, 2] (by norm_num)⟩

/-- Counterexample to claim C1 as stated: on the sequence of `2^30 + 2` zeros `merge_sort`
returns nothing (the `int` sum `left + right` overflows), so there is no common result, the
driver collects no results and prints no verdict. -/
theorem cross_algorithm_agreement_long_input :
    merge_sort (List.replicate (2 ^ 30 + 2) (0 : Int)) = none ∧
    (¬ ∃ O : List Int,
      selection_sort (List.replicate (2 ^ 30 + 2) (0 : Int)) = some O ∧
      merge_sort (List.replicate (2 ^ 30 + 2) (0 : Int)) = some O) ∧
    main_results listQueue (List.replicate (2 ^ 30 + 2) (0 : Int)) = none ∧
    main_verdict listQueue (List.replicate (2 ^ 30 + 2) (0 : Int)) = none := by
  refine ⟨merge_sort_replicate_none, ?_,
    (main_of_merge_none listQueue _ merge_sort_replicate_none).1,
    (main_of_merge_none listQueue _ merge_sort_replicate_none).2⟩
  rintro ⟨O, _, hO⟩
  rw [merge_sort_replicate_none] at hO
  cases hO

/-- Claim C2, amended: for every integer sequence `S` of at most `2^30 + 1` elements,
`merge_sort` returns an output `O` and `O` is ascending: `O[i] <= O[i+1]` for every index
`i` with `i + 1 < len(O)`. -/
theorem merge_sort_ascending (S : List Int) (h : S.length ≤ 2 ^ 30 + 1) :
    ∃ O : List Int, merge_sort S = some O ∧
      ∀ (i : Nat) (h : i + 1 < O.length), O[i] ≤ O[i + 1] := by
  obtain ⟨O, hm, hs, _⟩ := merge_sort_spec S h
  exact ⟨O, hm, sorted_adjacent O hs⟩

/-- Claim C2, amended, at the input `[3, 1, 2]`. -/
theorem merge_sort_ascending_witness :
    ([3, 1, 2] : List Int).length ≤ 2 ^ 30 + 1 ∧
      ∃ O : List Int, merge_sort [3, 1, 2] = some O ∧
        ∀ (i : Nat) (h : i + 1 < O.length), O[i] ≤ O[i + 1] :=
  ⟨by norm_num, merge_sort_ascending [3, 1, 2] (by norm_num)⟩

/-- Counterexample to claim C2 as stated: on the sequence of `2^30 + 2` zeros `merge_sort`
has no output, ascending or not. -/
theorem merge_sort_ascending_long_input :
    ¬ ∃ O : List Int, merge_sort (List.replicate (2 ^ 30 + 2) (0 : Int)) = some O ∧
      ∀ (i : Nat) (h : i + 1 < O.length), O[i] ≤ O[i + 1] := by
  rintro ⟨O, hO, _⟩
  rw [merge_sort_replicate_none] at hO
  cases hO

/-- Claim C3: for every integer sequence `S` the output of `quicksort` is ascending:
`O[i] <= O[i+1]` for every index `i` with `i + 1 < len(O)`. -/
theorem quicksort_ascending (S : List Int) (i : Nat) (h : i + 1 < (quicksort S).length) :
    (quicksort S)[i] ≤ (quicksort S)[i + 1] :=
  sorted_adjacent _ (quicksort_sorted S) i h

/-- Claim C3 at the input `[3, 1, 2]`, index `0`. -/
theorem quicksort_ascending_witness :
    ∃ h : 0 + 1 < (quicksort [3, 1, 2]).length,
      (quicksort [3, 1, 2])[0] ≤ (quicksort [3, 1, 2])[0 + 1] :=
  ⟨by simp [quicksort, partition_loop],
    quicksort_ascending [3, 1, 2] 0 (by simp [quicksort, partition_loop])⟩

/-- Claim C4, amended: for every integer sequence `S` of fewer than `2^31` elements,
`selection_sort` returns an output `O` and `O` is ascending: `O[i] <= O[i+1]` for every
index `i` with `i + 1 < len(O)`, the last position included. -/
theorem selection_sort_ascending (S : List Int) (h : S.length < 2 ^ 31) :
    ∃ O : List Int, selection_sort S = some O ∧
      ∀ (i : Nat) (h : i + 1 < O.length), O[i] ≤ O[i + 1] := by
  obtain ⟨O, hm, hs, _⟩ := selection_sort_spec S h
  exact ⟨O, hm, sorted_adjacent O hs⟩

/-- Claim C4, amended, at the input `[3, 1, 2]`. -/
theorem selection_sort_ascending_witness :
    ([3, 1, 2] : List Int).length < 2 ^ 31 ∧
      ∃ O : List Int, selection_sort [3, 1, 2] = some O ∧
        ∀ (i : Nat) (h : i + 1 < O.length), O[i] ≤ O[i + 1] :=
  ⟨by norm_num, selection_sort_ascending [3, 1, 2] (by norm_num)⟩

/-- Counterexample to claim C4 as stated: on `1` followed by `2^31` zeros the size narrows to
`n = 1 - 2^31`, the outer loop is never entered and the input comes back unsorted, `1` before
`0`; on `2^31` zeros `n` is the least `int` and `n - 1` overflows, so nothing is returned. -/
theorem selection_sort_long_input_unsorted :
    (∃ O : List Int, selection_sort (1 :: List.replicate (2 ^ 31) (0 : Int)) = some O ∧
      O[0]? = some 1 ∧ O[1]? = some 0) ∧
    selection_sort (List.replicate (2 ^ 31) (0 : Int)) = none :=
  ⟨⟨_, selection_sort_long_unchanged, long_input_heads.1, long_input_heads.2⟩,
    selection_sort_replicate_none⟩

/-- Claim C5: for every integer sequence `S` and every priority queue meeting the contract,
the output of `heapsort` is ascending: `O[i] <= O[i+1]` for every index `i` with
`i + 1 < len(O)`. -/
theorem heapsort_ascending (Q : MinPriorityQueue) (S : List Int) (i : Nat)
    (h : i + 1 < (heapsort Q S).length) :
    (heapsort Q S)[i] ≤ (heapsort Q S)[i + 1] :=
  sorted_adjacent _ (heapsort_sorted Q S) i h

/-- Claim C5 at the input `[3, 1, 2]`, index `0`, with the queue `listQueue`. -/
theorem heapsort_ascending_witness :
    ∃ h : 0 + 1 < (heapsort listQueue [3, 1, 2]).length,
      (heapsort listQueue [3, 1, 2])[0] ≤ (heapsort listQueue [3, 1, 2])[0 + 1] :=
  ⟨by simp [heapsort, heapsort_loop, listQueue],
    heapsort_ascending listQueue [3, 1, 2] 0 (by simp [heapsort, heapsort_loop, listQueue])⟩

/-- Claim C6, amended: for every integer sequence `S` of at most `2^30 + 1` elements,
`merge_sort` returns an output that has the length of `S` and in which every value occurs
exactly as often as in `S`. -/
theorem merge_sort_permutation (S : List Int) (h : S.length ≤ 2 ^ 30 + 1) :
    ∃ O : List Int, merge_sort S = some O ∧ O.length = S.length ∧
      ∀ x : Int, O.count x = S.count x := by
  obtain ⟨O, hm, _, hp⟩ := merge_sort_spec S h
  exact ⟨O, hm, hp.length_eq, fun x => hp.count_eq x⟩

/-- Claim C6, amended, at the input `[3, 1, 2]`. -/
theorem merge_sort_permutation_witness :
    ([3, 1, 2] : List Int).length ≤ 2 ^ 30 + 1 ∧
      ∃ O : List Int, merge_sort [3, 1, 2] = some O ∧
        O.length = ([3, 1, 2] : List Int).length ∧
        ∀ x : Int, O.count x = ([3, 1, 2] : List Int).count x :=
  ⟨by norm_num, merge_sort_permutation [3, 1, 2] (by norm_num)⟩

/-- Counterexample to claim C6 as stated: on the sequence of `2^30 + 2` zeros `merge_sort`
returns no output, hence no permutation of the input. -/
theorem merge_sort_permutation_long_input :
    ¬ ∃ O : List Int, merge_sort (List.replicate (2 ^ 30 + 2) (0 : Int)) = some O ∧
      O.length = (List.replicate (2 ^ 30 + 2) (0 : Int)).length ∧
      ∀ x : Int, O.count x = (List.replicate (2 ^ 30 + 2) (0 : Int)).count x := by
  rintro ⟨O, hO, _⟩
  rw [merge_sort_replicate_none] at hO
  cases hO

/-- Claim C7: for every integer sequence `S`, `quicksort S` has the length of `S` and every
value occurs in it exactly as often as in `S`. -/
theorem quicksort_permutation (S : List Int) :
    (quicksort S).length = S.length ∧ ∀ x : Int, (quicksort S).count x = S.count x :=
  ⟨(quicksort_perm S).length_eq, fun x => (quicksort_perm S).count_eq x⟩

/-- Claim C9: for every integer sequence `S` and every priority queue meeting the contract,
`heapsort S` has the length of `S` and every value occurs in it exactly as often as in `S`. -/
theorem heapsort_permutation (Q : MinPriorityQueue) (S : List Int) :
    (heapsort Q S).length = S.length ∧ ∀ x : Int, (heapsort Q S).count x = S.count x :=
  ⟨(heapsort_perm Q S).length_eq, fun x => (heapsort_perm Q S).count_eq x⟩

theorem all_equal_iff_eq (results : List (List Int)) :
    all_equal results = true ↔
      ∀ (k : Nat) (hk : k < results.length),
        results.get ⟨k, hk⟩ = results.get ⟨0, by omega⟩ := by
  unfold all_equal
  rw [all_equal_loop_iff]
  constructor
  · intro hall k hk
    by_cases h0 : k = 0
    · subst h0; rfl
    · exact hall k hk (by omega)
  · intro hall k hk _
    exact hall k hk

theorem list_eq_iff_elementwise (a b : List Int) :
    a = b ↔ a.length = b.length ∧ ∀ j : Nat, a[j]? = b[j]? := by
  constructor
  · intro h; subst h; exact ⟨rfl, fun _ => rfl⟩
  · intro h; exact List.ext_getElem? h.2

/-- Claim C11: `all_equal results` is true exactly when every entry of `results` has the
length of `results[0]` and the same value at every index; in particular it is true when
`results` is empty or has a single entry. -/
theorem all_equal_iff_elementwise (results : List (List Int)) :
    (all_equal results = true ↔
      ∀ (k : Nat) (hk : k < results.length),
        (results.get ⟨k, hk⟩).length = (results.get ⟨0, by omega⟩).length ∧
          ∀ j : Nat, (results.get ⟨k, hk⟩)[j]? = (results.get ⟨0, by omega⟩)[j]?) ∧
    (results.length ≤ 1 → all_equal results = true) := by
  constructor
  · rw [all_equal_iff_eq]
    constructor
    · intro hall k hk
      exact (list_eq_iff_elementwise _ _).mp (hall k hk)
    · intro hall k hk
      exact (list_eq_iff_elementwise _ _).mpr (hall k hk)
  · intro hlen
    rw [all_equal_iff_eq]
    intro k hk
    have h0 : k = 0 := by omega
    subst h0
    rfl

theorem merge_sort_base_case (fuel : Nat) (arr : List Int) (left right : Int)
    (h : left ≥ right) :
    merge_sort_helper (fuel + 1) arr left right = range_copy arr left (right + 1) := by
  rw [merge_sort_helper, if_pos h]

/-- Claim C12: on a sequence `S` of length 0 or 1 each of the four algorithms returns `S`
unchanged.  For `merge_sort` on the empty sequence the argument `size() - 1`, computed in an
unsigned `size_t` of at least 32 bits and narrowed to `int`, is `-1`; the call is
`merge_sort_helper(arr, 0, -1)`, it takes the base case `left >= right`, and the copied range
is the empty range `[0, 0)`. -/
theorem short_input_unchanged (Q : MinPriorityQueue) (S : List Int) (h : S.length ≤ 1) :
    (selection_sort S = some S ∧ merge_sort S = some S ∧ heapsort Q S = S ∧
      quicksort S = S) ∧
    (∀ w : Nat, 32 ≤ w → size_minus_one w 0 = -1) ∧
    (merge_sort [] = merge_sort_helper 1 [] 0 (-1) ∧ (0 : Int) ≥ -1 ∧
      merge_sort_helper 1 [] 0 (-1) = range_copy [] 0 (-1 + 1) ∧
      range_copy [] 0 (-1 + 1) = some []) := by
  have hS := sorted_of_length_le_one S h
  refine ⟨⟨?_, ?_, ?_, ?_⟩, ?_, ?_, ?_, ?_, ?_⟩
  · obtain ⟨O, hm, hs, hp⟩ := selection_sort_spec S (by omega)
    rw [hm, sorted_perm_unique hs hS hp (List.Perm.refl _)]
  · obtain ⟨O, hm, hs, hp⟩ := merge_sort_spec S (by omega)
    rw [hm, sorted_perm_unique hs hS hp (List.Perm.refl _)]
  · exact sorted_perm_unique (heapsort_sorted Q S) hS (heapsort_perm Q S) (List.Perm.refl _)
  · exact sorted_perm_unique (quicksort_sorted S) hS (quicksort_perm S) (List.Perm.refl _)
  · intro w hw
    have := size_minus_one_eq w 0 hw (by norm_num)
    simpa using this
  · have e : size_minus_one 64 0 = -1 := by
      have := size_minus_one_eq 64 0 (by norm_num) (by norm_num)
      simpa using this
    unfold merge_sort
    rw [List.length_nil, e]
  · decide
  · exact merge_sort_base_case 0 [] 0 (-1) (by decide)
  · rfl

/-- Claim C12 at the one-element sequence `[7]`. -/
theorem short_input_unchanged_witness :
    ([7] : List Int).length ≤ 1 ∧
      (selection_sort [7] = some [7] ∧ merge_sort [7] = some [7] ∧
        heapsort listQueue [7] = [7] ∧ quicksort [7] = [7]) :=
  ⟨by decide, (short_input_unchanged listQueue [7] (by decide)).1⟩

/-- Claim C13: on the input `[5, 3, 5, 1, 3]` each of the four algorithms returns exactly
`[1, 3, 3, 5, 5]`. -/
theorem scenario_5_3_5_1_3 (Q : MinPriorityQueue) :
    selection_sort [5, 3, 5, 1, 3] = some [1, 3, 3, 5, 5] ∧
    merge_sort [5, 3, 5, 1, 3] = some [1, 3, 3, 5, 5] ∧
    heapsort Q [5, 3, 5, 1, 3] = [1, 3, 3, 5, 5] ∧
    quicksort [5, 3, 5, 1, 3] = [1, 3, 3, 5, 5] := by
  have hs : List.Sorted (· ≤ ·) ([1, 3, 3, 5, 5] : List Int) := by decide
  have hp : List.Perm ([1, 3, 3, 5, 5] : List Int) [5, 3, 5, 1, 3] := by decide
  refine ⟨?_, ?_, ?_, ?_⟩
  · obtain ⟨O, hm, hs2, hp2⟩ := selection_sort_spec [5, 3, 5, 1, 3] (by norm_num)
    rw [hm, sorted_perm_unique hs2 hs hp2 hp]
  · obtain ⟨O, hm, hs2, hp2⟩ := merge_sort_spec [5, 3, 5, 1, 3] (by norm_num)
    rw [hm, sorted_perm_unique hs2 hs hp2 hp]
  · exact sorted_perm_unique (heapsort_sorted Q _) hs (heapsort_perm Q _) hp
  · exact sorted_perm_unique (quicksort_sorted _) hs (quicksort_perm _) hp

theorem pivot_mem (arr : List Int) (h : 2 ≤ arr.length) : arr[arr.length / 2] ∈ arr :=
  List.getElem_mem _

theorem quicksort_unfold (arr : List Int) (h : 2 ≤ arr.length) :
    quicksort arr =
      (quicksort (partition_loop arr[arr.length / 2] arr ([], [], [])).1 ++
        (partition_loop arr[arr.length / 2] arr ([], [], [])).2.1) ++
        quicksort (partition_loop arr[arr.length / 2] arr ([], [], [])).2.2 := by
  rw [quicksort, dif_neg (by omega)]
  rfl

/-- Claim C15: `quicksort` terminates on every sequence.  When the input has length at least
2, the pivot `arr[size / 2]` lands in the bucket `mid`, so the buckets `left` and `right`
handed to the recursive calls are strictly shorter than the input; the recursion is
well-founded on the length (the definition of `quicksort` is accepted on this measure), and
`quicksort` returns a result on every input. -/
theorem quicksort_terminates (arr : List Int) (h : 2 ≤ arr.length) :
    arr[arr.length / 2] ∈ (partition_loop arr[arr.length / 2] arr ([], [], [])).2.1 ∧
    (partition_loop arr[arr.length / 2] arr ([], [], [])).1.length < arr.length ∧
    (partition_loop arr[arr.length / 2] arr ([], [], [])).2.2.length < arr.length ∧
    ∃ O : List Int, quicksort arr = O ∧
      O = (quicksort (partition_loop arr[arr.length / 2] arr ([], [], [])).1 ++
        (partition_loop arr[arr.length / 2] arr ([], [], [])).2.1) ++
        quicksort (partition_loop arr[arr.length / 2] arr ([], [], [])).2.2 := by
  refine ⟨?_, partition_left_lt arr _ (pivot_mem arr h),
    partition_right_lt arr _ (pivot_mem arr h), _, rfl, quicksort_unfold arr h⟩
  rw [partition_loop_eq]
  simp only [List.nil_append]
  exact List.mem_filter.mpr ⟨pivot_mem arr h, by simp⟩

/-- Claim C15 at the input `[3, 1, 2]`: the pivot is `1`, the buckets are `[]`, `[1]` and
`[3, 2]`. -/
theorem quicksort_terminates_witness :
    2 ≤ ([3, 1, 2] : List Int).length ∧
      (1 : Int) ∈ (partition_loop 1 [3, 1, 2] ([], [], [])).2.1 ∧
      (partition_loop 1 [3, 1, 2] ([], [], [])).1.length < 3 ∧
      (partition_loop 1 [3, 1, 2] ([], [], [])).2.2.length < 3 :=
  ⟨by decide, (quicksort_terminates [3, 1, 2] (by decide)).1,
    (quicksort_terminates [3, 1, 2] (by decide)).2.1,
    (quicksort_terminates [3, 1, 2] (by decide)).2.2.1⟩

/-- Claim C18: for a sequence `arr` of length at least 2 and the pivot `p = arr[len / 2]`, the
push-back loop computes exactly the three filters (elements less than, equal to, greater than
`p`, in original order), and `quicksort arr` is
`quicksort less ++ equal ++ quicksort greater`. -/
theorem quicksort_three_way (arr : List Int) (h : 2 ≤ arr.length) :
    partition_loop arr[arr.length / 2] arr ([], [], []) =
      (less_than_pivot arr[arr.length / 2] arr, equal_to_pivot arr[arr.length / 2] arr,
        greater_than_pivot arr[arr.length / 2] arr) ∧
    quicksort arr =
      quicksort (less_than_pivot arr[arr.length / 2] arr) ++
        equal_to_pivot arr[arr.length / 2] arr ++
        quicksort (greater_than_pivot arr[arr.length / 2] arr) := by
  have hb : partition_loop arr[arr.length / 2] arr ([], [], []) =
      (less_than_pivot arr[arr.length / 2] arr, equal_to_pivot arr[arr.length / 2] arr,
        greater_than_pivot arr[arr.length / 2] arr) := by
    rw [partition_loop_eq]
    simp only [List.nil_append, less_than_pivot, equal_to_pivot, greater_than_pivot]
  refine ⟨hb, ?_⟩
  rw [quicksort_unfold arr h, hb]

/-- Claim C18 at the input `[3, 1, 2]`, whose pivot is `1`. -/
theorem quicksort_three_way_witness :
    2 ≤ ([3, 1, 2] : List Int).length ∧
      partition_loop 1 [3, 1, 2] ([], [], []) = ([], [1], [3, 2]) ∧
      quicksort [3, 1, 2] = quicksort [] ++ [1] ++ quicksort [3, 2] :=
  ⟨by decide, (quicksort_three_way [3, 1, 2] (by decide)).1,
    (quicksort_three_way [3, 1, 2] (by decide)).2⟩

/-- Claim C20, amended: the output of each algorithm depends only on the multiset of the
input, on the lengths its index type covers: when `S2` is a permutation of `S`,
`selection_sort` returns the same output on both if they have fewer than `2^31` elements,
`merge_sort` if they have at most `2^30 + 1` elements, `heapsort` and `quicksort` always. -/
theorem output_depends_on_multiset (Q : MinPriorityQueue) (S S2 : List Int)
    (h : List.Perm S2 S) :
    (S.length < 2 ^ 31 →
      ∃ O : List Int, selection_sort S = some O ∧ selection_sort S2 = some O) ∧
    (S.length ≤ 2 ^ 30 + 1 →
      ∃ O : List Int, merge_sort S = some O ∧ merge_sort S2 = some O) ∧
    heapsort Q S = heapsort Q S2 ∧
    quicksort S = quicksort S2 := by
  refine ⟨?_, ?_, ?_, ?_⟩
  · intro hl
    obtain ⟨O, hm, hs, hp⟩ := selection_sort_spec S hl
    obtain ⟨O2, hm2, hs2, hp2⟩ := selection_sort_spec S2 (by rw [h.length_eq]; exact hl)
    have e : O2 = O := sorted_perm_unique hs2 hs (hp2.trans h) hp
    exact ⟨O, hm, e ▸ hm2⟩
  · intro hl
    obtain ⟨O, hm, hs, hp⟩ := merge_sort_spec S hl
    obtain ⟨O2, hm2, hs2, hp2⟩ := merge_sort_spec S2 (by rw [h.length_eq]; exact hl)
    have e : O2 = O := sorted_perm_unique hs2 hs (hp2.trans h) hp
    exact ⟨O, hm, e ▸ hm2⟩
  · exact sorted_perm_unique (heapsort_sorted Q S) (heapsort_sorted Q S2)
      (heapsort_perm Q S) ((heapsort_perm Q S2).trans h)
  · exact sorted_perm_unique (quicksort_sorted S) (quicksort_sorted S2)
      (quicksort_perm S) ((quicksort_perm S2).trans h)

/-- Claim C20, amended, at `S = [3, 1, 2]` and its permutation `[2, 3, 1]`. -/
theorem output_depends_on_multiset_witness :
    List.Perm ([2, 3, 1] : List Int) [3, 1, 2] ∧
      (∃ O : List Int, selection_sort [3, 1, 2] = some O ∧ selection_sort [2, 3, 1] = some O) ∧
      (∃ O : List Int, merge_sort [3, 1, 2] = some O ∧ merge_sort [2, 3, 1] = some O) ∧
      heapsort listQueue [3, 1, 2] = heapsort listQueue [2, 3, 1] ∧
      quicksort [3, 1, 2] = quicksort [2, 3, 1] :=
  ⟨by decide,
    (output_depends_on_multiset listQueue [3, 1, 2] [2, 3, 1] (by decide)).1 (by norm_num),
    (output_depends_on_multiset listQueue [3, 1, 2] [2, 3, 1] (by decide)).2.1 (by norm_num),
    (output_depends_on_multiset listQueue [3, 1, 2] [2, 3, 1] (by decide)).2.2⟩

/-- Counterexample to claim C20 as stated: `1` followed by `2^31` zeros and its permutation,
`2^31` zeros followed by `1`, both come back from `selection_sort` unchanged, so the two
outputs differ (they start with `1` and with `0`); and on `2^30 + 2` zeros `merge_sort`
returns no output at all. -/
theorem output_depends_on_multiset_long_input :
    List.Perm (List.replicate (2 ^ 31) (0 : Int) ++ [1]) (1 :: List.replicate (2 ^ 31) 0) ∧
    (∃ O O2 : List Int,
      selection_sort (1 :: List.replicate (2 ^ 31) (0 : Int)) = some O ∧
      selection_sort (List.replicate (2 ^ 31) (0 : Int) ++ [1]) = some O2 ∧
      O[0]? = some 1 ∧ O2[0]? = some 0 ∧ O ≠ O2) ∧
    merge_sort (List.replicate (2 ^ 30 + 2) (0 : Int)) = none := by
  refine ⟨List.perm_append_singleton _ _,
    ⟨_, _, selection_sort_long_unchanged, selection_sort_long_perm_unchanged,
      long_input_heads.1, long_perm_heads, ?_⟩, merge_sort_replicate_none⟩
  intro he
  have h1 := long_input_heads.1
  rw [he, long_perm_heads] at h1
  cases h1

/-! The calls of the helper stay inside the vector, and the midpoint splits the range. -/

theorem helper_call_entry (arr : List Int) (h : arr.length ≤ 2 ^ 31) :
    HelperCall arr 0 ((arr.length : Int) - 1) := by
  have e := size_minus_one_eq 64 arr.length (by norm_num) h
  rw [← e]
  exact HelperCall.entry

theorem helper_call_bounds (arr : List Int) (left right : Int) (hn : arr.length ≤ 2 ^ 31)
    (h : HelperCall arr left right) :
    0 ≤ left ∧ left ≤ right + 1 ∧ right ≤ (arr.length : Int) - 1 := by
  induction h with
  | entry =>
    rw [size_minus_one_eq 64 arr.length (by norm_num) hn]
    omega
  | left_half hc hlt hfit ih =>
    rename_i l r
    have hmid : Int.tdiv (l + r) 2 = (l + r) / 2 := Int.tdiv_eq_ediv (by omega) (by omega)
    rw [hmid]; omega
  | right_half hc hlt hfit ih =>
    rename_i l r
    have hmid : Int.tdiv (l + r) 2 = (l + r) / 2 := Int.tdiv_eq_ediv (by omega) (by omega)
    rw [hmid]; omega

theorem midpoint_bounds (left right : Int) (h0 : 0 ≤ left) (h : left < right) :
    left ≤ Int.tdiv (left + right) 2 ∧ Int.tdiv (left + right) 2 < right := by
  have hmid : Int.tdiv (left + right) 2 = (left + right) / 2 :=
    Int.tdiv_eq_ediv (by omega) (by omega)
  rw [hmid]; omega

theorem merge_sort_helper_fuel (arr : List Int) (fuel : Nat) (h : arr.length < fuel)
    (hn : arr.length ≤ 2 ^ 30 + 1) :
    merge_sort_helper fuel arr 0 (size_minus_one 64 arr.length) = merge_sort arr := by
  obtain ⟨O, hm, hs, hp⟩ := merge_sort_spec arr hn
  obtain ⟨O2, hm2, hs2, hp2⟩ := merge_sort_helper_root fuel arr h hn
  rw [hm, hm2, sorted_perm_unique hs2 hs hp2 hp]

theorem helper_call_312 : HelperCall [3, 1, 2] 0 2 := by
  have h := helper_call_entry [3, 1, 2] (by norm_num)
  have e : ((([3, 1, 2] : List Int).length : Int) - 1) = 2 := by norm_num
  rw [e] at h
  exact h

theorem merge_loop_ne_none (L R : List Int) (i j : Nat) (result : List Int) :
    merge_loop L R i j result ≠ none := by
  induction i, j, result using merge_loop.induct L R with
  | case1 i j result h a b hb ha hab ih =>
    rw [merge_loop]; simp only [h, and_self, if_true, ha, hb, hab]; exact ih
  | case2 i j result h a b hb ha hab ih =>
    rw [merge_loop]; simp only [h, and_self, if_true, ha, hb, hab, if_false]; exact ih
  | case3 i j result h hn =>
    exfalso
    exact hn _ _ (List.getElem?_eq_getElem h.1) (List.getElem?_eq_getElem h.2)
  | case4 i j result h =>
    rw [merge_loop]; simp only [h, if_false]
    exact Option.some_ne_none _

/-- Claim C16, amended: `merge_sort` terminates on every sequence of at most `2^30 + 1`
elements: it returns a result, the same for every recursion bound above the length.  In every
call `merge_sort_helper(arr, left, right)` it makes with `left < right`, the sum
`left + right` does not overflow and the midpoint `mid = (left + right) / 2` satisfies
`left <= mid < right`, so the ranges `[left, mid]` and `[mid + 1, right]` are non-empty and
strictly shorter than `[left, right]`, and `right - left` is a non-negative measure that
decreases. -/
theorem merge_sort_terminates (arr : List Int) (hn : arr.length ≤ 2 ^ 30 + 1) :
    (∃ O : List Int, merge_sort arr = some O ∧
      ∀ fuel : Nat, arr.length < fuel →
        merge_sort_helper fuel arr 0 (size_minus_one 64 arr.length) = some O) ∧
    ∀ left right : Int, HelperCall arr left right → left < right →
      fits_int32 (left + right) = true ∧
      left ≤ Int.tdiv (left + right) 2 ∧ Int.tdiv (left + right) 2 < right ∧
      Int.tdiv (left + right) 2 - left + 1 < right - left + 1 ∧
      right - (Int.tdiv (left + right) 2 + 1) + 1 < right - left + 1 ∧
      0 ≤ Int.tdiv (left + right) 2 - left ∧
      0 ≤ right - (Int.tdiv (left + right) 2 + 1) := by
  constructor
  · obtain ⟨O, hm, _, _⟩ := merge_sort_spec arr hn
    refine ⟨O, hm, ?_⟩
    intro fuel hf
    rw [merge_sort_helper_fuel arr fuel hf hn, hm]
  · intro left right hc hlt
    have hb := helper_call_bounds arr left right (by omega) hc
    have hm := midpoint_bounds left right hb.1 hlt
    have hn2 : (arr.length : Int) ≤ 2 ^ 30 + 1 := by exact_mod_cast hn
    refine ⟨(fits_int32_iff _).mpr ⟨by omega, by omega⟩, ?_⟩
    omega

/-- Claim C16, amended, at the input `[3, 1, 2]` and its first call `(0, 2)`, whose midpoint
is `1`. -/
theorem merge_sort_terminates_witness :
    ([3, 1, 2] : List Int).length ≤ 2 ^ 30 + 1 ∧ HelperCall [3, 1, 2] 0 2 ∧ (0 : Int) < 2 ∧
      (∃ O : List Int, merge_sort [3, 1, 2] = some O) ∧
      fits_int32 (0 + 2) = true ∧
      (0 : Int) ≤ Int.tdiv (0 + 2) 2 ∧ Int.tdiv (0 + 2) 2 < 2 :=
  ⟨by norm_num, helper_call_312, by decide,
    ⟨_, (merge_sort_terminates [3, 1, 2] (by norm_num)).1.choose_spec.1⟩,
    ((merge_sort_terminates [3, 1, 2] (by norm_num)).2 0 2 helper_call_312 (by decide)).1,
    ((merge_sort_terminates [3, 1, 2] (by norm_num)).2 0 2 helper_call_312 (by decide)).2.1,
    ((merge_sort_terminates [3, 1, 2] (by norm_num)).2 0 2 helper_call_312
      (by decide)).2.2.1⟩

/-- Counterexample to claim C16 as stated: on the sequence of `2^30 + 2` zeros `merge_sort`
does not come back with a result, whatever the recursion bound: every call `(left, right)`
with `0 <= left < right = 2^30 + 1` fails, because down its right halves a sum
`left + right` overflows; already `2^30 + (2^30 + 1)` is no `int`. -/
theorem merge_sort_terminates_long_input :
    (¬ ∃ O : List Int, merge_sort (List.replicate (2 ^ 30 + 2) (0 : Int)) = some O) ∧
    (∀ fuel : Nat,
      merge_sort_helper fuel (List.replicate (2 ^ 30 + 2) (0 : Int)) 0 (2 ^ 30 + 1) = none) ∧
    fits_int32 (2 ^ 30 + (2 ^ 30 + 1)) = false := by
  refine ⟨?_, ?_, ?_⟩
  · rintro ⟨O, hO⟩
    rw [merge_sort_replicate_none] at hO
    cases hO
  · intro fuel
    exact merge_sort_helper_overflow fuel _ _ (le_refl _) 0 (le_refl _) (by norm_num)
  · rw [Bool.eq_false_iff]
    intro hf
    have hfit := (fits_int32_iff _).mp hf
    norm_num at hfit

/-- Claim C19: for a vector of length `n < 2^30`, `merge_sort` never indexes out of range.
The argument `size() - 1` is `n - 1` as a 32-bit `int`.  Every call
`merge_sort_helper(arr, left, right)` made satisfies either `0 <= left < right <= n - 1`, with
`left + right` inside the range of a 32-bit `int`, or `left >= right` with the copied range
`[left, right + 1)` a valid range inside `[0, n]` (for `n = 0` it is `left = 0`,
`right = -1`).  The reads `left_part[i]`, `right_part[j]` of the merge loops are never out of
range, and `merge_sort` returns a result. -/
theorem merge_sort_in_range (arr : List Int) (hn : arr.length < 2 ^ 30) :
    (∀ w : Nat, 32 ≤ w → size_minus_one w arr.length = (arr.length : Int) - 1) ∧
    (∀ left right : Int, HelperCall arr left right →
      (0 ≤ left ∧ left < right ∧ right ≤ (arr.length : Int) - 1 ∧
        0 ≤ left + right ∧ left + right < 2 ^ 31) ∨
      (left ≥ right ∧ 0 ≤ left ∧ left ≤ right + 1 ∧ right + 1 ≤ (arr.length : Int) ∧
        ∃ part : List Int, range_copy arr left (right + 1) = some part)) ∧
    (arr.length = 0 → ∀ left right : Int, HelperCall arr left right →
      left = 0 ∧ right = -1) ∧
    (∀ (left_part right_part : List Int) (i j : Nat) (result : List Int),
      merge_loop left_part right_part i j result ≠ none ∧
      copy_rest left_part i result ≠ none ∧ copy_rest right_part j result ≠ none) ∧
    ∃ O : List Int, merge_sort arr = some O := by
  have hcall : ∀ left right : Int, HelperCall arr left right →
      (0 ≤ left ∧ left < right ∧ right ≤ (arr.length : Int) - 1 ∧
        0 ≤ left + right ∧ left + right < 2 ^ 31) ∨
      (left ≥ right ∧ 0 ≤ left ∧ left ≤ right + 1 ∧ right + 1 ≤ (arr.length : Int) ∧
        ∃ part : List Int, range_copy arr left (right + 1) = some part) := by
    intro left right hc
    have hb := helper_call_bounds arr left right (by omega) hc
    have hn2 : (arr.length : Int) < 2 ^ 30 := by exact_mod_cast hn
    by_cases hlt : left < right
    · left; omega
    · right
      refine ⟨by omega, hb.1, hb.2.1, by omega, ?_⟩
      unfold range_copy
      rw [if_pos (by omega)]
      exact ⟨_, rfl⟩
  refine ⟨?_, hcall, ?_, ?_, ?_⟩
  · intro w hw
    exact size_minus_one_eq w arr.length hw (by omega)
  · intro h0 left right hc
    have hb := helper_call_bounds arr left right (by omega) hc
    omega
  · intro L R i j result
    refine ⟨merge_loop_ne_none L R i j result, ?_, ?_⟩
    · rw [copy_rest_eq]; exact Option.some_ne_none _
    · rw [copy_rest_eq]; exact Option.some_ne_none _
  · obtain ⟨O, hm, _, _⟩ := merge_sort_spec arr (by omega)
    exact ⟨O, hm⟩

/-- Claim C19 at the input `[3, 1, 2]`: its first call `(0, 2)` is a recursive case inside
the vector. -/
theorem merge_sort_in_range_witness :
    ([3, 1, 2] : List Int).length < 2 ^ 30 ∧ HelperCall [3, 1, 2] 0 2 ∧
      (((0 : Int) ≤ 0 ∧ (0 : Int) < 2 ∧ (2 : Int) ≤ (([3, 1, 2] : List Int).length : Int) - 1 ∧
          (0 : Int) ≤ 0 + 2 ∧ (0 : Int) + 2 < 2 ^ 31) ∨
        ((0 : Int) ≥ 2 ∧ (0 : Int) ≤ 0 ∧ (0 : Int) ≤ 2 + 1 ∧
          (2 : Int) + 1 ≤ (([3, 1, 2] : List Int).length : Int) ∧
          ∃ part : List Int, range_copy [3, 1, 2] 0 (2 + 1) = some part)) :=
  ⟨by norm_num, helper_call_312,
    (merge_sort_in_range [3, 1, 2] (by norm_num)).2.1 0 2 helper_call_312⟩

/-- Counterexample to claim C17 as stated: called with `n = 3`, `min_val = 5`, `max_val = 1`
the generator constructs `uniform_int_distribution<>(5, 1)`, against the precondition of that
constructor; the call has undefined behaviour, which is not a failure with
`InvalidRangeError`. -/
theorem generator_inverted_range :
    (1 : Int) < 5 ∧
      generate_random_vector (fun _ _ k => (k : Int)) 3 5 1 = GenOutcome.undefined_behaviour ∧
      generate_random_vector (fun _ _ k => (k : Int)) 3 5 1 ≠ GenOutcome.invalid_range_error :=
  ⟨by decide, rfl, fun h => GenOutcome.noConfusion h⟩

/-- Claim C17, amended: the generator has no range check and no `InvalidRangeError`:
`min_val <= max_val` is a precondition of the call.  No call ends with `InvalidRangeError`;
a call with `min_val > max_val` has undefined behaviour; a call with `min_val <= max_val`
and `n >= 0` returns a vector of exactly `n` elements, the `k`-th being the `k`-th draw; a
call with `min_val <= max_val` and `n < 0` ends with the `length_error` of the vector
constructor. -/
theorem generator_has_no_range_error (draw : Int → Int → Nat → Int) (n : Int)
    (min_val max_val : Int) :
    generate_random_vector draw n min_val max_val ≠ GenOutcome.invalid_range_error ∧
    (max_val < min_val →
      generate_random_vector draw n min_val max_val = GenOutcome.undefined_behaviour) ∧
    (min_val ≤ max_val → 0 ≤ n →
      ∃ vec : List Int,
        generate_random_vector draw n min_val max_val = GenOutcome.returned vec ∧
        (vec.length : Int) = n ∧
        ∀ k : Nat, (k : Int) < n → vec[k]? = some (draw min_val max_val k)) ∧
    (min_val ≤ max_val → n < 0 →
      generate_random_vector draw n min_val max_val = GenOutcome.length_error) := by
  refine ⟨?_, ?_, ?_, ?_⟩
  · unfold generate_random_vector
    split
    · exact fun h => GenOutcome.noConfusion h
    · split
      · exact fun h => GenOutcome.noConfusion h
      · exact fun h => GenOutcome.noConfusion h
  · intro h
    unfold generate_random_vector
    rw [if_pos h]
  · intro h hn
    unfold generate_random_vector
    rw [if_neg (by omega), if_neg (by omega)]
    refine ⟨_, rfl, ?_, ?_⟩
    · simp only [List.length_map, List.length_range]
      omega
    · intro k hk
      have hk2 : k < n.toNat := by omega
      simp [hk2]
  · intro h hn
    unfold generate_random_vector
    rw [if_neg (by omega), if_pos hn]

/-- Claim C17, amended, at `n = 3`, `min_val = 1`, `max_val = 5` and the draws `0, 1, 2`, and
at the inverted range `min_val = 5`, `max_val = 1`. -/
theorem generator_has_no_range_error_witness :
    ((1 : Int) ≤ 5 ∧ (0 : Int) ≤ 3 ∧
      ∃ vec : List Int,
        generate_random_vector (fun _ _ k => (k : Int)) 3 1 5 = GenOutcome.returned vec ∧
        (vec.length : Int) = 3 ∧
        ∀ k : Nat, (k : Int) < 3 → vec[k]? = some ((fun _ _ k => (k : Int)) 1 5 k)) ∧
    ((1 : Int) < 5 ∧
      generate_random_vector (fun _ _ k => (k : Int)) 3 5 1 = GenOutcome.undefined_behaviour) :=
  ⟨⟨by decide, by decide,
    (generator_has_no_range_error (fun _ _ k => (k : Int)) 3 1 5).2.2.1 (by decide)
      (by decide)⟩,
    by decide,
    (generator_has_no_range_error (fun _ _ k => (k : Int)) 3 5 1).2.1 (by decide)⟩

/-! Labelled merge sort: the merge is the ordered merge on values, which keeps the order of
equal values. -/

theorem labelled_copy_rest_eq {L : Type} (part : List (Int × L)) (i : Nat)
    (result : List (Int × L)) :
    labelled_copy_rest part i result = some (result ++ part.drop i) := by
  induction i, result using labelled_copy_rest.induct part with
  | case1 i result h a ha ih =>
    rw [labelled_copy_rest]; simp only [h, if_true, ha]
    rw [ih, List.append_assoc]
    obtain ⟨h2, rfl⟩ := List.getElem?_eq_some_iff.mp ha
    simp
  | case2 i result h hn =>
    exfalso
    rw [List.getElem?_eq_getElem h] at hn; cases hn
  | case3 i result h =>
    rw [labelled_copy_rest]; simp only [h, if_false]
    rw [List.drop_of_length_le (by omega)]; simp

theorem labelled_drop_eq_cons {L : Type} {l : List (Int × L)} {i : Nat} {a : Int × L}
    (h : l[i]? = some a) : l.drop i = a :: l.drop (i + 1) := by
  obtain ⟨h2, rfl⟩ := List.getElem?_eq_some_iff.mp h
  exact (List.getElem_cons_drop l i h2).symm

theorem labelled_merge_from_eq {L : Type} (A B : List (Int × L)) (i j : Nat)
    (result : List (Int × L)) :
    labelled_merge_from A B i j result =
      some (result ++ List.merge (A.drop i) (B.drop j) (fun a b => decide (a.1 ≤ b.1))) := by
  induction i, j, result using labelled_merge_loop.induct A B with
  | case1 i j result h a b hb ha hab ih =>
    unfold labelled_merge_from at ih ⊢
    rw [labelled_merge_loop]; simp only [h, and_self, if_true, ha, hb, hab]
    rw [ih, labelled_drop_eq_cons ha, labelled_drop_eq_cons hb]
    rw [List.cons_merge_cons_pos _ _ _ (by simpa using hab)]
    rw [← labelled_drop_eq_cons hb]; simp
  | case2 i j result h a b hb ha hab ih =>
    unfold labelled_merge_from at ih ⊢
    rw [labelled_merge_loop]; simp only [h, and_self, if_true, ha, hb, hab, if_false]
    rw [ih, labelled_drop_eq_cons ha, labelled_drop_eq_cons hb]
    rw [List.cons_merge_cons_neg _ _ _ (by simpa using hab)]
    rw [← labelled_drop_eq_cons ha]; simp
  | case3 i j result h hn =>
    exfalso
    exact hn _ _ (List.getElem?_eq_getElem h.1) (List.getElem?_eq_getElem h.2)
  | case4 i j result h =>
    unfold labelled_merge_from
    rw [labelled_merge_loop]; simp only [h, if_false]
    simp only [labelled_copy_rest_eq]
    by_cases hi : i < A.length
    · have hj : B.length ≤ j := by
        by_contra hc; exact h ⟨hi, by omega⟩
      rw [List.drop_of_length_le hj]; simp
    · rw [List.drop_of_length_le (by omega)]; simp

theorem labelled_merge_parts_eq {L : Type} (A B : List (Int × L)) :
    labelled_merge_parts A B = some (List.merge A B (fun a b => decide (a.1 ≤ b.1))) :=
  labelled_merge_from_eq A B 0 0 []

theorem merge_by_value_sorted {L : Type} (A B : List (Int × L))
    (hA : List.Pairwise (fun a b => a.1 ≤ b.1) A)
    (hB : List.Pairwise (fun a b => a.1 ≤ b.1) B) :
    List.Pairwise (fun a b => a.1 ≤ b.1)
      (List.merge A B (fun a b => decide (a.1 ≤ b.1))) := by
  have := @List.sorted_merge (Int × L) (fun (a b : Int × L) => decide (a.1 ≤ b.1))
    (fun a b c h1 h2 => by simp only [decide_eq_true_eq] at h1 h2 ⊢; omega)
    (fun a b => by simp only [Bool.or_eq_true, decide_eq_true_eq]; omega)
    A B (by simpa using hA) (by simpa using hB)
  simpa using this

theorem merge_by_value_stable {L : Type} (v : Int) (A B : List (Int × L))
    (hA : List.Pairwise (fun a b => a.1 ≤ b.1) A) :
    (List.merge A B (fun a b => decide (a.1 ≤ b.1))).filter (fun p => decide (p.1 = v)) =
      A.filter (fun p => decide (p.1 = v)) ++ B.filter (fun p => decide (p.1 = v)) := by
  induction A generalizing B with
  | nil => simp
  | cons a A ihA =>
    induction B with
    | nil => simp
    | cons b B ihB =>
      by_cases hab : a.1 ≤ b.1
      · rw [List.cons_merge_cons_pos _ _ _ (by simpa using hab)]
        rw [List.filter_cons, ihA _ hA.tail]
        by_cases ha : a.1 = v
        · simp [ha, List.filter_cons]
        · simp [ha, List.filter_cons]
      · rw [List.cons_merge_cons_neg _ _ _ (by simpa using hab)]
        rw [List.filter_cons, ihB]
        by_cases hb : b.1 = v
        · have hnone : (a :: A).filter (fun p => decide (p.1 = v)) = [] := by
            rw [List.filter_eq_nil_iff]
            intro p hp
            have hle : a.1 ≤ p.1 := by
              rcases List.mem_cons.mp hp with rfl | hp2
              · exact le_refl _
              · exact List.rel_of_pairwise_cons hA hp2
            simp only [decide_eq_true_eq]
            omega
          rw [if_pos (by simpa using hb), hnone]
          simp [hb, List.filter_cons]
        · rw [if_neg (by simpa using hb)]
          simp [hb, List.filter_cons]

theorem labelled_slice_append {L : Type} (arr : List (Int × L)) (l m e : Nat) (h1 : l ≤ m)
    (h2 : m ≤ e) :
    (arr.drop l).take (m - l) ++ (arr.drop m).take (e - m) = (arr.drop l).take (e - l) := by
  have h3 : e - l = (m - l) + (e - m) := by omega
  rw [h3, List.take_add, List.drop_drop]
  have h4 : l + (m - l) = m := by omega
  rw [h4]

theorem labelled_helper_spec {L : Type} (fuel : Nat) : ∀ (arr : List (Int × L)) (l e : Nat),
    l ≤ e → e ≤ arr.length → e - l < fuel → e ≤ 2 ^ 30 + 1 →
    ∃ O, labelled_merge_sort_helper fuel arr (l : Int) ((e : Int) - 1) = some O ∧
      List.Pairwise (fun a b => a.1 ≤ b.1) O ∧ List.Perm O ((arr.drop l).take (e - l)) ∧
      ∀ v : Int, O.filter (fun p => decide (p.1 = v)) =
        ((arr.drop l).take (e - l)).filter (fun p => decide (p.1 = v)) := by
  induction fuel with
  | zero => intro arr l e _ _ h; omega
  | succ fuel ih =>
    intro arr l e hle he hf hbig
    rw [labelled_merge_sort_helper]
    by_cases hb : (l : Int) ≥ (e : Int) - 1
    · rw [if_pos hb]
      refine ⟨(arr.drop l).take (e - l), ?_, ?_, List.Perm.refl _, fun _ => rfl⟩
      · unfold labelled_range_copy
        rw [if_pos (by omega)]
        congr 2
        omega
      · have hlen : ((arr.drop l).take (e - l)).length ≤ 1 := by
          rw [List.length_take]; omega
        match hO : (arr.drop l).take (e - l), hlen with
        | [], _ => exact List.Pairwise.nil
        | [a], _ => exact List.pairwise_singleton _ a
        | _ :: _ :: _, h => simp at h
    · rw [if_neg hb, if_pos ((fits_int32_iff _).mpr ⟨by omega, by omega⟩)]
      have hmid : Int.tdiv ((l : Int) + ((e : Int) - 1)) 2 = (((l + e - 1) / 2 : Nat) : Int) := by
        rw [Int.tdiv_eq_ediv (by omega) (by omega)]
        omega
      rw [hmid]
      have e1 : (((l + e - 1) / 2 : Nat) : Int) = (((l + e - 1) / 2 + 1 : Nat) : Int) - 1 := by
        omega
      have e2 : (((l + e - 1) / 2 : Nat) : Int) + 1 = (((l + e - 1) / 2 + 1 : Nat) : Int) := by
        omega
      obtain ⟨A, hA1, hA2, hA3, hA4⟩ :=
        ih arr l ((l + e - 1) / 2 + 1) (by omega) (by omega) (by omega) (by omega)
      obtain ⟨B, hB1, hB2, hB3, hB4⟩ :=
        ih arr ((l + e - 1) / 2 + 1) e (by omega) (by omega) (by omega) (by omega)
      rw [e2, hB1]
      rw [e1, hA1]
      simp only
      rw [labelled_merge_parts_eq]
      have hsl := labelled_slice_append arr l ((l + e - 1) / 2 + 1) e (by omega) (by omega)
      refine ⟨_, rfl, merge_by_value_sorted A B hA2 hB2, ?_, ?_⟩
      · refine (List.merge_perm_append _).trans ?_
        rw [← hsl]
        exact hA3.append hB3
      · intro v
        rw [merge_by_value_stable v A B hA2, hA4 v, hB4 v, ← List.filter_append, hsl]

theorem labelled_merge_sort_spec {L : Type} (S : List (Int × L))
    (h : S.length ≤ 2 ^ 30 + 1) :
    ∃ O, labelled_merge_sort S = some O ∧
      List.Pairwise (fun a b => a.1 ≤ b.1) O ∧ List.Perm O S ∧
      ∀ v : Int, O.filter (fun p => decide (p.1 = v)) = S.filter (fun p => decide (p.1 = v)) := by
  obtain ⟨O, h1, h2, h3, h4⟩ := labelled_helper_spec (S.length + 1) S 0 S.length
    (by omega) (le_refl _) (by omega) h
  refine ⟨O, ?_, h2, ?_, ?_⟩
  · unfold labelled_merge_sort
    rw [size_minus_one_eq 64 S.length (by norm_num) (by omega)]
    simpa using h1
  · simpa using h3
  · intro v; simpa using h4 v

theorem pair_sublist_of_filter {L : Type} (S O : List (Int × L)) (x y : Int × L)
    (hxy : x.1 = y.1)
    (hf : O.filter (fun p => decide (p.1 = x.1)) = S.filter (fun p => decide (p.1 = x.1)))
    (hs : List.Sublist [x, y] S) : List.Sublist [x, y] O := by
  have h1 : List.Sublist ([x, y].filter (fun p => decide (p.1 = x.1)))
      (S.filter (fun p => decide (p.1 = x.1))) := hs.filter _
  have h2 : [x, y].filter (fun p => decide (p.1 = x.1)) = [x, y] := by
    simp [hxy]
  rw [h2, ← hf] at h1
  exact h1.trans (List.filter_sublist _)

/-- A call `(left, right)` of the labelled helper with `0 <= left < right` and
`right >= 2^30 + 1` does not return: a sum `left + right` leaves the range of `int`. -/
theorem labelled_helper_overflow {L : Type} (fuel : Nat) (arr : List (Int × L)) (right : Int)
    (hR : 2 ^ 30 + 1 ≤ right) : ∀ left : Int, 0 ≤ left → left < right →
    labelled_merge_sort_helper fuel arr left right = none := by
  induction fuel with
  | zero => intro left _ _; rw [labelled_merge_sort_helper]
  | succ fuel ih =>
    intro left h0 hl
    rw [labelled_merge_sort_helper, if_neg (by omega)]
    by_cases hf : fits_int32 (left + right) = true
    · rw [if_pos hf]
      have hfit := (fits_int32_iff _).mp hf
      have hmid : Int.tdiv (left + right) 2 = (left + right) / 2 :=
        Int.tdiv_eq_ediv (by omega) (by omega)
      have hnone := ih (Int.tdiv (left + right) 2 + 1) (by rw [hmid]; omega)
        (by rw [hmid]; omega)
      rw [hnone]
      cases labelled_merge_sort_helper fuel arr left (Int.tdiv (left + right) 2) <;> rfl
    · rw [if_neg hf]

theorem labelled_merge_sort_long_input {L : Type} (S : List (Int × L))
    (h1 : 2 ^ 30 + 2 ≤ S.length) (h2 : S.length ≤ 2 ^ 31) : labelled_merge_sort S = none := by
  unfold labelled_merge_sort
  rw [size_minus_one_eq 64 S.length (by norm_num) h2]
  have h3 : ((2 ^ 30 + 2 : Nat) : Int) ≤ (S.length : Int) := by exact_mod_cast h1
  exact labelled_helper_overflow _ S _ (by push_cast at h3; omega) 0 (le_refl _)
    (by push_cast at h3; omega)

/-- Counterexample to claim C14 as stated: on the input of `2^30 + 2` elements of value `0`,
labelled with their positions, the algorithm of `merge_sort_helper` produces no output, so
there is no output in which the equal elements keep their order; `merge_sort` on the values
produces none either. -/
theorem merge_sort_stable_long_input :
    (¬ ∃ O : List (Int × Nat),
      labelled_merge_sort ((List.range (2 ^ 30 + 2)).map (fun k => ((0 : Int), k))) = some O) ∧
    merge_sort (((List.range (2 ^ 30 + 2)).map (fun k => ((0 : Int), k))).map Prod.fst)
      = none := by
  constructor
  · rintro ⟨O, hO⟩
    rw [labelled_merge_sort_long_input _
      (by rw [List.length_map, List.length_range])
      (by rw [List.length_map, List.length_range]; norm_num)] at hO
    cases hO
  · exact merge_sort_long_input _
      (by rw [List.length_map, List.length_map, List.length_range])
      (by rw [List.length_map, List.length_map, List.length_range]; norm_num)

/-- Claim C14, amended: merge sort is stable on every input of at most `2^30 + 1` elements.
Run on `(value, label)` pairs compared by value only, the algorithm returns an output `O`
whose values are the output of `merge_sort` on the values of the input, and elements with
equal values keep their relative order: for every value `v` the elements with value `v` occur
in `O` in the same order as in the input, and whenever `x` stands before `y` in the input and
both carry the same value, `x` stands before `y` in `O`. -/
theorem merge_sort_stable {L : Type} (S : List (Int × L)) (h : S.length ≤ 2 ^ 30 + 1) :
    ∃ O : List (Int × L), labelled_merge_sort S = some O ∧
      merge_sort (S.map Prod.fst) = some (O.map Prod.fst) ∧
      (∀ v : Int, O.filter (fun p => decide (p.1 = v)) = S.filter (fun p => decide (p.1 = v))) ∧
      (∀ x y : Int × L, x.1 = y.1 → List.Sublist [x, y] S → List.Sublist [x, y] O) := by
  obtain ⟨O, hm, hs, hp, hf⟩ := labelled_merge_sort_spec S h
  refine ⟨O, hm, ?_, hf, ?_⟩
  · obtain ⟨O2, hm2, hs2, hp2⟩ := merge_sort_spec (S.map Prod.fst)
      (by rw [List.length_map]; exact h)
    have hs3 : List.Sorted (· ≤ ·) (O.map Prod.fst) := by
      rw [List.Sorted, List.pairwise_map]; exact hs
    rw [hm2, sorted_perm_unique hs2 hs3 hp2 (hp.map Prod.fst)]
  · intro x y hxy hsub
    exact pair_sublist_of_filter S O x y hxy (hf x.1) hsub

/-- Claim C14, amended, on the scenario `[5, 3, 5, 1, 3]` with the positions as labels: in
the output the two `3`s and the two `5`s stand in their input order. -/
theorem merge_sort_stable_witness :
    ([(5, 0), (3, 1), (5, 2), (1, 3), (3, 4)] : List (Int × Nat)).length ≤ 2 ^ 30 + 1 ∧
    ∃ O : List (Int × Nat),
      labelled_merge_sort [(5, 0), (3, 1), (5, 2), (1, 3), (3, 4)] = some O ∧
      O.map Prod.fst = [1, 3, 3, 5, 5] ∧
      List.Sublist [(3, 1), (3, 4)] O ∧ List.Sublist [(5, 0), (5, 2)] O := by
  refine ⟨by norm_num, ?_⟩
  obtain ⟨O, h1, h2, _, h4⟩ :=
    merge_sort_stable ([(5, 0), (3, 1), (5, 2), (1, 3), (3, 4)] : List (Int × Nat))
      (by norm_num)
  refine ⟨O, h1, ?_, h4 (3, 1) (3, 4) rfl (by decide), h4 (5, 0) (5, 2) rfl (by decide)⟩
  obtain ⟨O2, hm, hs, hp⟩ := merge_sort_spec [5, 3, 5, 1, 3] (by norm_num)
  have e : O2 = [1, 3, 3, 5, 5] :=
    sorted_perm_unique hs (by decide) hp (by decide)
  have h3 : merge_sort [5, 3, 5, 1, 3] = some (O.map Prod.fst) := h2
  rw [hm, e] at h3
  exact (Option.some.inj h3).symm

end SortComparison
